/-
  Verification of the Lutron Homeworks Series 4/8 integration core.

  Shallow embedding of the protocol parsing, address normalization, CCO
  state-engine and reconnect-backoff logic of the repository, together with
  proofs of the specification claims.  Strings are modelled as `List Char`
  (the repository works on ASCII lines), machine integers as `Int`/`Nat`,
  fallible code as `Option`.  Timestamps carried by messages are opaque to
  every claim and are dropped from the model.
-/
import Mathlib

namespace HWI

/-! ### Character helpers (Python built-ins used by the source) -/

/-- Python whitespace characters stripped by `str.strip()`. -/
def isPySpace (c : Char) : Bool :=
  c = ' ' ∨ c = '\t' ∨ c = '\n' ∨ c = '\r' ∨ c = '\x0b' ∨ c = '\x0c'

/-- Characters stripped by `str.strip("[]")`. -/
def isBr (c : Char) : Bool := c = '[' ∨ c = ']'

/-- Numeric value of a decimal digit character. -/
def digitVal (c : Char) : Nat := c.toNat - '0'.toNat

/-- Python `str.isdigit`: true on the decimal digits and also on the
    other Unicode digit-property characters.  Of the latter the model
    carries the superscript digits `¹`, `²`, `³` as representatives;
    every remaining such character behaves the same way for the parser
    (kept by the filter, rejected by `int`). -/
def pyIsDigit (c : Char) : Bool :=
  c.isDigit || c = '¹' || c = '²' || c = '³'

/-- `int(c)` on a single character: succeeds exactly on decimal digits
    and raises `ValueError` on the digit-property characters that are not
    decimal digits (`int('²')` raises although `'²'.isdigit()` is true). -/
def charDigit? (c : Char) : Option Nat :=
  if c.isDigit then some (digitVal c) else none

/-- Value of a nonempty all-digit string. -/
def digitsVal (s : List Char) : Nat :=
  s.foldl (fun a c => a * 10 + digitVal c) 0

/-- A nonempty all-digit string, or `none`. -/
def digits? (s : List Char) : Option Nat :=
  if s ≠ [] ∧ s.all Char.isDigit then some (digitsVal s) else none

/-- `int(s)` for the integer fields of protocol messages: optional sign
    followed by at least one digit, `None` otherwise (`ValueError`). -/
def pyInt? (s : List Char) : Option Int :=
  match s with
  | [] => none
  | c :: rest =>
      if c = '-' then (digits? rest).map (fun n => -(n : Int))
      else if c = '+' then (digits? rest).map (fun n => (n : Int))
      else (digits? (c :: rest)).map (fun n => (n : Int))

/-! ### Python `str.strip` -/

/-- `s.strip(chars)`: drop the maximal run of characters satisfying `p`
    from both ends. -/
def pstrip (p : Char → Bool) (s : List Char) : List Char :=
  (s.dropWhile p).rdropWhile p

/-- `line.strip()` (whitespace). -/
def pyStrip (s : List Char) : List Char := pstrip isPySpace s

/-- `addr.strip("[]")`. -/
def stripBr (s : List Char) : List Char := pstrip isBr s

/-! ### Splitting and joining (Python `str.split` / `str.join`) -/

/-- `s.split(sep)` for a single-character separator. -/
def splitChar (sep : Char) : List Char → List (List Char)
  | [] => [[]]
  | c :: rest =>
      if c = sep then [] :: splitChar sep rest
      else
        match splitChar sep rest with
        | [] => [[c]]
        | p :: ps => (c :: p) :: ps

/-- `sep.join(parts)` for a single-character separator. -/
def joinChar (sep : Char) : List (List Char) → List Char
  | [] => []
  | [p] => p
  | p :: ps => p ++ sep :: joinChar sep ps

/-- `s.split(ab)` for a two-character separator `a` then `b`
    (the source splits lines on the string `", "`). -/
def splitSeq2 (a b : Char) : List Char → List (List Char)
  | [] => [[]]
  | [c] => [[c]]
  | c :: d :: rest =>
      if c = a ∧ d = b then [] :: splitSeq2 a b rest
      else
        match splitSeq2 a b (d :: rest) with
        | [] => [[c]]
        | p :: ps => (c :: p) :: ps

/-- Python `part.zfill(2)`: left-pad with `'0'` to width 2, keeping a
    leading sign in front of the inserted zeros. -/
def zfill2 (s : List Char) : List Char :=
  if 2 ≤ s.length then s
  else
    match s with
    | [] => ['0', '0']
    | [c] => if c = '+' ∨ c = '-' then [c, '0'] else ['0', c]
    | s => s

/-! ### Address normalization

`normalize_address` appears twice in the source with identical bodies
(`custom_components/homeworks/models.py` and
`custom_components/homeworks/pyhomeworks/protocol.py`); both strip the
brackets, split on `':'`, zero-pad each part to two characters and
re-bracket.  One definition embeds both. -/

def normalize_address (s : List Char) : List Char :=
  '[' :: joinChar ':' ((splitChar ':' (stripBr s)).map zfill2) ++ [']']

/-- The canonical shape claimed by the spec: a bracketed, colon-separated
    string whose 2–5 segments are zero-padded digit strings.  This is a
    spec-side pattern definition used to state claim C5; it is not
    translated from the source. -/
def canonicalPattern (s : List Char) : Bool :=
  match s with
  | [] => false
  | c :: rest =>
      (c = '[') && (rest.getLast? = some ']') &&
      ((splitChar ':' rest.dropLast).all
          (fun p => decide (2 ≤ p.length) && p.all Char.isDigit) &&
        decide (2 ≤ (splitChar ':' rest.dropLast).length) &&
        decide ((splitChar ':' rest.dropLast).length ≤ 5))

/-! ### Typed messages

From `custom_components/homeworks/pyhomeworks/messages.py` and
`custom_components/homeworks_hwi/hwi_protocol/messages.py` (the two
packages declare the same dataclasses; `CCIMessage` exists only in the
latter).  The `timestamp` field is opaque to every claim and omitted. -/

inductive ButtonEventType where
  | pressed
  | released
  | hold
  | doubleTap
deriving DecidableEq, Repr

inductive ButtonSource where
  | keypad
  | dimmer
  | sivoia
deriving DecidableEq, Repr

inductive Msg where
  | kls (raw : List Char) (address : List Char) (led_states : List Nat)
  | dl (raw : List Char) (address : List Char) (level : Int)
  | buttonEvent (raw : List Char) (address : List Char) (button : Int)
      (event_type : ButtonEventType) (source : ButtonSource)
  | kes (raw : List Char) (address : List Char) (enabled : Bool)
  | gss (raw : List Char) (address : List Char) (scene : Int)
  | svs (raw : List Char) (address : List Char) (command status : List Char)
  | cci (raw : List Char) (address : List Char) (input_number : Int) (state : Bool)
  | unknown (raw : List Char) (parts : List (List Char))
deriving DecidableEq, Repr

/-- The `IGNORED_MESSAGES` frozenset of `protocol.py`. -/
def IGNORED_MESSAGES : List (List Char) :=
  [ "Keypad button monitoring enabled".data
  , "Keypad button monitoring disabled".data
  , "GrafikEye scene monitoring enabled".data
  , "GrafikEye scene monitoring disabled".data
  , "Dimmer level monitoring enabled".data
  , "Dimmer level monitoring disabled".data
  , "Keypad led monitoring enabled".data
  , "Keypad led monitoring disabled".data
  , "CCO monitoring enabled".data
  , "Cover monitoring enabled".data ]

/-! ### Per-command line parsing (`protocol.py`) -/

/-- Sequence fallible digit conversions, propagating the first failure
    (the `ValueError` of the generator expression). -/
def mapDigits? : List Char → Option (List Nat)
  | [] => some []
  | c :: t =>
      match charDigit? c, mapDigits? t with
      | some d, some ds => some (d :: ds)
      | _, _ => none

/-- The digit extraction of `_parse_kls`:
    `tuple(int(c) for c in led_string if c.isdigit())` — the filter is
    `str.isdigit` (`pyIsDigit`), the conversion the fallible `charDigit?`,
    so a kept non-decimal digit character fails the whole extraction. -/
def ledStates? (s : List Char) : Option (List Nat) :=
  mapDigits? (s.filter pyIsDigit)

/-- The pad/truncate step of `_parse_kls`: a vector that is not exactly
    24 long is right-padded with zeros or truncated. -/
def padTrunc24 (l : List Nat) : List Nat :=
  if l.length = 24 then l
  else if l.length < 24 then l ++ List.replicate (24 - l.length) 0
  else l.take 24

/-- `_parse_kls`. -/
def parse_kls (line : List Char) (parts : List (List Char)) : Option Msg :=
  match parts with
  | _ :: addr :: led :: _ =>
      match ledStates? led with
      | none => none
      | some ls => some (.kls line (normalize_address addr) (padTrunc24 ls))
  | _ => none

/-- `_parse_dl`. -/
def parse_dl (line : List Char) (parts : List (List Char)) : Option Msg :=
  match parts with
  | _ :: addr :: lvl :: _ =>
      match pyInt? lvl with
      | none => none
      | some level => some (.dl line (normalize_address addr) level)
  | _ => none

/-- `_make_button_parser(event_type, source)`. -/
def parse_button (et : ButtonEventType) (src : ButtonSource)
    (line : List Char) (parts : List (List Char)) : Option Msg :=
  match parts with
  | _ :: addr :: btn :: _ =>
      match pyInt? btn with
      | none => none
      | some button => some (.buttonEvent line (normalize_address addr) button et src)
  | _ => none

/-- `_parse_kes`. -/
def parse_kes (line : List Char) (parts : List (List Char)) : Option Msg :=
  match parts with
  | _ :: addr :: st :: _ =>
      some (.kes line (normalize_address addr) (st.map Char.toLower = "enabled".data))
  | _ => none

/-- `_parse_gss`. -/
def parse_gss (line : List Char) (parts : List (List Char)) : Option Msg :=
  match parts with
  | _ :: addr :: sc :: _ =>
      match pyInt? sc with
      | none => none
      | some scene => some (.gss line (normalize_address addr) scene)
  | _ => none

/-- `_parse_svs`. -/
def parse_svs (line : List Char) (parts : List (List Char)) : Option Msg :=
  match parts with
  | _ :: addr :: cmd :: st :: _ =>
      some (.svs line (normalize_address addr) cmd st)
  | _ => none

/-- The `_PARSERS` dispatch table of
    `custom_components/homeworks/pyhomeworks/protocol.py` applied to the
    upper-cased first token (dictionary lookup order is irrelevant). -/
def dispatch (command line : List Char) (parts : List (List Char)) : Option Msg :=
  if command = "KLS".data then parse_kls line parts
  else if command = "DL".data then parse_dl line parts
  else if command = "KBP".data then parse_button .pressed .keypad line parts
  else if command = "KBR".data then parse_button .released .keypad line parts
  else if command = "KBH".data then parse_button .hold .keypad line parts
  else if command = "KBDT".data then parse_button .doubleTap .keypad line parts
  else if command = "DBP".data then parse_button .pressed .dimmer line parts
  else if command = "DBR".data then parse_button .released .dimmer line parts
  else if command = "DBH".data then parse_button .hold .dimmer line parts
  else if command = "DBDT".data then parse_button .doubleTap .dimmer line parts
  else if command = "SVBP".data then parse_button .pressed .sivoia line parts
  else if command = "SVBR".data then parse_button .released .sivoia line parts
  else if command = "SVBH".data then parse_button .hold .sivoia line parts
  else if command = "SVBDT".data then parse_button .doubleTap .sivoia line parts
  else if command = "KES".data then parse_kes line parts
  else if command = "GSS".data then parse_gss line parts
  else if command = "SVS".data then parse_svs line parts
  else some (.unknown line parts)

/-- `MessageParser._parse_line`: strip the line, drop empty and banner
    lines, tokenize on `", "`, strip each token, dispatch on the
    upper-cased first token, falling back to `Unknown`. -/
def parse_line (line0 : List Char) : Option Msg :=
  let line := pyStrip line0
  if line = [] then none
  else if line ∈ IGNORED_MESSAGES then none
  else
    match (splitSeq2 ',' ' ' line).map pyStrip with
    | [] => none
    | cmd :: rest => dispatch (cmd.map Char.toUpper) line (cmd :: rest)

/-- Modelled from the spec: the message parser of
    `custom_components/homeworks_hwi/hwi_protocol/protocol.py` is not under
    `src/` (only its `CCIMessage` declaration in `messages.py` and its
    callers in `client.py`/`coordinator.py` are), so its CCI branch is
    modelled from the spec grammar `CCI, <addr>, <input>, <state>` and the
    `CCIMessage` dataclass: normalized address, integer input number,
    boolean state (`True` = closed, reported as `1` on the wire). -/
def parse_cci (line : List Char) (parts : List (List Char)) : Option Msg :=
  match parts with
  | _ :: addr :: inp :: st :: _ =>
      match pyInt? inp, pyInt? st with
      | some i, some s => some (.cci line (normalize_address addr) i (s = 1))
      | _, _ => none
  | _ => none

/-- Modelled from the spec: dispatch table of the `hwi_protocol` parser —
    the table of `_PARSERS` extended with the `CCI` entry that produces the
    typed `CCIMessage` declared in `hwi_protocol/messages.py`. -/
def hwi_dispatch (command line : List Char) (parts : List (List Char)) : Option Msg :=
  if command = "CCI".data then parse_cci line parts
  else dispatch command line parts

/-- Modelled from the spec: `_parse_line` of the `hwi_protocol` parser,
    identical to `parse_line` except for the extended dispatch table. -/
def hwi_parse_line (line0 : List Char) : Option Msg :=
  let line := pyStrip line0
  if line = [] then none
  else if line ∈ IGNORED_MESSAGES then none
  else
    match (splitSeq2 ',' ' ' line).map pyStrip with
    | [] => none
    | cmd :: rest => hwi_dispatch (cmd.map Char.toUpper) line (cmd :: rest)

/-! ### Buffering (`MessageParser.feed`)

`feed` appends the received bytes to the internal buffer and repeatedly
splits the buffer at the first CRLF, parsing each removed line. -/

/-- `buffer.split(CRLF, 1)`: split at the first `"\r\n"`, returning the
    line before it and the remainder, or `none` when no CRLF is present. -/
def splitFirstCRLF : List Char → Option (List Char × List Char)
  | [] => none
  | [_] => none
  | c :: d :: rest =>
      if c = '\r' ∧ d = '\n' then some ([], rest)
      else
        match splitFirstCRLF (d :: rest) with
        | none => none
        | some (l, r) => some (c :: l, r)

/-- The per-line step of `feed`: skip empty lines, otherwise parse,
    discarding lines the parser rejects. -/
def lineMsgs (l : List Char) : List Msg :=
  if l = [] then [] else (parse_line l).toList

/-- The `while CRLF in buffer` loop of `feed`, returning the parsed
    messages and the leftover buffer. -/
def extract (b : List Char) : List Msg × List Char :=
  match h : splitFirstCRLF b with
  | none => ([], b)
  | some (l, r) =>
      let rest := extract r
      (lineMsgs l ++ rest.1, rest.2)
termination_by b.length
decreasing_by
  suffices hs : ∀ (b l r : List Char),
      splitFirstCRLF b = some (l, r) → b = l ++ '\r' :: '\n' :: r by
    have hb := hs _ _ _ h
    subst hb
    simp
    omega
  intro b
  induction b with
  | nil => intro l r h; simp [splitFirstCRLF] at h
  | cons c tail ih =>
      intro l r h
      cases tail with
      | nil => simp [splitFirstCRLF] at h
      | cons d rest =>
          rw [splitFirstCRLF] at h
          by_cases hcd : c = '\r' ∧ d = '\n'
          · rw [if_pos hcd] at h
            cases h
            simp [hcd.1, hcd.2]
          · rw [if_neg hcd] at h
            cases hsub : splitFirstCRLF (d :: rest) with
            | none => rw [hsub] at h; cases h
            | some pr =>
                rw [hsub] at h
                cases pr with
                | mk l' r' =>
                    cases h
                    have := ih _ _ hsub
                    simp [this]

/-- `MessageParser.feed`: the parser state is its buffer. -/
def feed (buf data : List Char) : List Msg × List Char :=
  extract (buf ++ data)

/-- Feeding a sequence of chunks in order, accumulating the messages. -/
def feedMany (buf : List Char) : List (List Char) → List Msg × List Char
  | [] => ([], buf)
  | c :: cs =>
      let fst := feed buf c
      let rest := feedMany fst.2 cs
      (fst.1 ++ rest.1, rest.2)

/-! ### KLS state and CCO window extraction (`models.py`, `messages.py`) -/

/-- `CCO_BUTTON_WINDOW_OFFSET`: 0-indexed start of the 8-button window. -/
def CCO_BUTTON_WINDOW_OFFSET : Nat := 9

/-- `CCO_BUTTON_WINDOW_LENGTH`. -/
def CCO_BUTTON_WINDOW_LENGTH : Int := 8

/-- `KLSMessage` of `hwi_protocol/messages.py` (timestamp dropped). -/
structure KLSMessageS where
  raw : List Char
  address : List Char
  led_states : List Nat
deriving DecidableEq, Repr

/-- `KLSMessage.get_led_state`: raw LED digit at a 1-indexed position,
    `0` outside `1..len(led_states)`. -/
def KLSMessageS.get_led_state (m : KLSMessageS) (position : Int) : Nat :=
  if 1 ≤ position ∧ position ≤ (m.led_states.length : Int) then
    m.led_states.getD (position - 1).toNat 0
  else 0

/-- `KLSMessage.get_cco_relay_state`: CCO relay state from the button
    window (window offsets are non-negative configuration values). -/
def KLSMessageS.get_cco_relay_state (m : KLSMessageS) (relay : Int)
    (window_offset : Nat) : Bool :=
  if ¬(1 ≤ relay ∧ relay ≤ CCO_BUTTON_WINDOW_LENGTH) then false
  else
    let index : Nat := window_offset + (relay - 1).toNat
    if (m.led_states.length : Int) ≤ index then false
    else decide (m.led_states.getD index 0 = 1)

/-- `KLSState` of `custom_components/homeworks/models.py`
    (timestamp dropped). -/
structure KLSState where
  address : List Char
  led_states : List Nat
deriving DecidableEq, Repr

/-- `KLSState.get_button_state`. -/
def KLSState.get_button_state (s : KLSState) (button : Int) : Nat :=
  if (1 ≤ button ∧ button ≤ 24) ∧ button ≤ (s.led_states.length : Int) then
    s.led_states.getD (button - 1).toNat 0
  else 0

/-- `KLSState.get_cco_state`. -/
def KLSState.get_cco_state (s : KLSState) (button : Int)
    (window_offset : Nat) : Bool :=
  if ¬(1 ≤ button ∧ button ≤ CCO_BUTTON_WINDOW_LENGTH) then false
  else
    let index : Nat := window_offset + (button - 1).toNat
    if (s.led_states.length : Int) ≤ index then false
    else decide (s.led_states.getD index 0 = 1)

/-! ### Devices (`models.py`) -/

inductive CCOEntityType where
  | switch
  | light
  | lock
  | cover
deriving DecidableEq, Repr

/-- `CCOAddress` (processor:link:address,button). -/
structure CCOAddress where
  processor : Int
  link : Int
  address : Int
  button : Int
deriving DecidableEq, Repr

/-- `CCOAddress.unique_key`. -/
def CCOAddress.unique_key (a : CCOAddress) : Int × Int × Int × Int :=
  (a.processor, a.link, a.address, a.button)

/-- `CCODevice` (display name and area are irrelevant to the claims). -/
structure CCODevice where
  address : CCOAddress
  entity_type : CCOEntityType
  inverted : Bool
deriving DecidableEq, Repr

/-- `CCODevice.interpret_state`: `1` = ON, anything else OFF, negated for
    inverted devices. -/
def CCODevice.interpret_state (d : CCODevice) (kls_digit : Nat) : Bool :=
  let is_on := decide (kls_digit = 1)
  if d.inverted then !is_on else is_on

/-! ### Coordinator state (`homeworks_hwi/coordinator.py`)

Python dictionaries are modelled as association lists (insertion ordered,
keys unique). -/

abbrev Key : Type := Int × Int × Int × Int

/-- `dict.get`. -/
def alLookup {β : Type} : List (Key × β) → Key → Option β
  | [], _ => none
  | (k', v) :: t, k => if k' = k then some v else alLookup t k

/-- `dict[k] = v`. -/
def alUpdate {β : Type} : List (Key × β) → Key → β → List (Key × β)
  | [], k, v => [(k, v)]
  | (k', v') :: t, k, v => if k' = k then (k, v) :: t else (k', v') :: alUpdate t k v

/-- The coordinator caches relevant to the claims. -/
structure CoordState where
  cco_devices : List (Key × CCODevice)
  cco_states : List (Key × Bool)
  dimmer_states : List (List Char × Int)
  keypad_led_states : List (List Char × List Nat)
deriving Repr

/-- `dict[addr] = led` on a string-keyed cache. -/
def slUpdate {β : Type} : List (List Char × β) → List Char → β → List (List Char × β)
  | [], k, v => [(k, v)]
  | (k', v') :: t, k, v => if k' = k then (k, v) :: t else (k', v') :: slUpdate t k v

/-- The device loop of `_handle_kls_update` (coordinator lines 385–416):
    for every registered device at the matching processor/link/address with
    button 1..8 and an in-window index, derive the new state with
    `interpret_state` and record a change when it differs from the cached
    value (`dict.get`, `None` for never-seen keys). -/
def handleKlsFold (offset : Nat) (processor link addr : Int) (led : List Nat) :
    List (Key × CCODevice) → List (Key × Bool) → Bool → List (Key × Bool) × Bool
  | [], states, changed => (states, changed)
  | (key, device) :: rest, states, changed =>
      if device.address.processor = processor ∧ device.address.link = link ∧
          device.address.address = addr then
        let button := device.address.button
        if 1 ≤ button ∧ button ≤ 8 then
          let index : Nat := offset + (button - 1).toNat
          if index < led.length then
            let led_value := led.getD index 0
            let new_state := device.interpret_state led_value
            let old_state := alLookup states key
            if old_state ≠ some new_state then
              handleKlsFold offset processor link addr led rest
                (alUpdate states key new_state) true
            else
              handleKlsFold offset processor link addr led rest states changed
          else handleKlsFold offset processor link addr led rest states changed
        else handleKlsFold offset processor link addr led rest states changed
      else handleKlsFold offset processor link addr led rest states changed

/-- Parse a normalized `[pp:ll:aa]` address into its three integers
    (the `int(parts[i])` block of `_handle_kls_update`). -/
def parseKlsAddr3 (normalized : List Char) : Option (Int × Int × Int) :=
  match (splitChar ':' (stripBr normalized)).map pyInt? with
  | some p :: some l :: some a :: _ => some (p, l, a)
  | _ => none

/-- `_handle_kls_update`: store the vector in the KLS cache, parse the
    address (returning without notification on failure), update every
    matching device and emit a single aggregated notification exactly when
    some cached state changed.  A notification is modelled by the snapshot
    of the CCO state cache it carries. -/
def handle_kls_update (offset : Nat) (st : CoordState)
    (address : List Char) (led : List Nat) : CoordState × List (List (Key × Bool)) :=
  match parseKlsAddr3 (normalize_address address) with
  | none =>
      ({ st with keypad_led_states :=
          slUpdate st.keypad_led_states (normalize_address address) led }, [])
  | some (processor, link, addr) =>
      if (handleKlsFold offset processor link addr led st.cco_devices st.cco_states false).2
      then
        ({ st with
            keypad_led_states :=
              slUpdate st.keypad_led_states (normalize_address address) led,
            cco_states :=
              (handleKlsFold offset processor link addr led st.cco_devices st.cco_states false).1 },
         [(handleKlsFold offset processor link addr led st.cco_devices st.cco_states false).1])
      else
        ({ st with
            keypad_led_states :=
              slUpdate st.keypad_led_states (normalize_address address) led,
            cco_states :=
              (handleKlsFold offset processor link addr led st.cco_devices st.cco_states false).1 },
         [])

/-! ### Coordinator command methods (lines 514–615)

Each command method is modelled by its effect on the caches plus its
boolean result; `hasClient` is whether `self._client` is set and `sendOk`
the result of the underlying transport write. -/

/-- `async_cco_close`: optimistic cache update on success. -/
def async_cco_close (st : CoordState) (hasClient sendOk : Bool)
    (address : CCOAddress) : CoordState × Bool :=
  if !hasClient then (st, false)
  else if sendOk then
    ({ st with cco_states := alUpdate st.cco_states address.unique_key true }, true)
  else (st, false)

/-- `async_cco_open`: optimistic cache update on success. -/
def async_cco_open (st : CoordState) (hasClient sendOk : Bool)
    (address : CCOAddress) : CoordState × Bool :=
  if !hasClient then (st, false)
  else if sendOk then
    ({ st with cco_states := alUpdate st.cco_states address.unique_key false }, true)
  else (st, false)

/-- `async_fade_dim`: pure proxy to the client, no cache access. -/
def async_fade_dim (st : CoordState) (hasClient sendOk : Bool) : CoordState × Bool :=
  if !hasClient then (st, false) else (st, sendOk)

/-- `async_request_dimmer_level`. -/
def async_request_dimmer_level (st : CoordState) (hasClient sendOk : Bool) :
    CoordState × Bool :=
  if !hasClient then (st, false) else (st, sendOk)

/-- `async_motor_cover_up` (likewise `_down` and `_stop`). -/
def async_motor_cover_up (st : CoordState) (hasClient sendOk : Bool) :
    CoordState × Bool :=
  if !hasClient then (st, false) else (st, sendOk)

/-- `async_keypad_button_press` (likewise `_release`). -/
def async_keypad_button_press (st : CoordState) (hasClient sendOk : Bool) :
    CoordState × Bool :=
  if !hasClient then (st, false) else (st, sendOk)

/-- `async_request_keypad_led_states`. -/
def async_request_keypad_led_states (st : CoordState) (hasClient sendOk : Bool) :
    CoordState × Bool :=
  if !hasClient then (st, false) else (st, sendOk)

/-! ### Reconnect backoff (`hwi_protocol/client.py`)

The delay values reachable from `RECONNECT_DELAY_MIN` under doubling and
the 60-second cap are whole numbers of seconds, so the float arithmetic is
modelled exactly on `Nat`. -/

def RECONNECT_DELAY_MIN : Nat := 1
def RECONNECT_DELAY_MAX : Nat := 60
def RECONNECT_DELAY_MULTIPLIER : Nat := 2

/-- The failure branch of `_run`:
    `delay = min(delay * MULTIPLIER, MAX)` after sleeping `delay`. -/
def nextReconnectDelay (d : Nat) : Nat :=
  min (d * RECONNECT_DELAY_MULTIPLIER) RECONNECT_DELAY_MAX

inductive ConnEvent where
  | failure
  | success
deriving DecidableEq, Repr

/-- Evolution of `self._reconnect_delay`: doubled-and-capped after a
    failed connect, reset to the minimum after a successful connect. -/
def reconnectDelayStep (d : Nat) : ConnEvent → Nat
  | .failure => nextReconnectDelay d
  | .success => RECONNECT_DELAY_MIN

/-- The delay after a sequence of connect outcomes. -/
def runDelay (d : Nat) (es : List ConnEvent) : Nat :=
  es.foldl reconnectDelayStep d

/-- The waits performed: each failed attempt sleeps the current delay
    before the next attempt; a success sleeps nothing. -/
def waitsDuring (d : Nat) : List ConnEvent → List Nat
  | [] => []
  | .failure :: es => d :: waitsDuring (nextReconnectDelay d) es
  | .success :: es => waitsDuring RECONNECT_DELAY_MIN es

/-- The 24-digit sample vector of the spec, as parsed digits. -/
def sampleLed1 : List Nat := "000000000222112110000000".data.map digitVal

/-! ## Theorems -/

/-! ### Association-list lemmas -/

theorem alLookup_update_self {β : Type} (s : List (Key × β)) (k : Key) (v : β) :
    alLookup (alUpdate s k v) k = some v := by
  induction s with
  | nil => simp [alUpdate, alLookup]
  | cons p t ih =>
      cases p with
      | mk k' v' =>
          by_cases h : k' = k
          · simp [alUpdate, alLookup, h]
          · simp [alUpdate, alLookup, h, ih]

theorem alLookup_update_ne {β : Type} (s : List (Key × β)) (k k₂ : Key) (v : β)
    (h : k ≠ k₂) : alLookup (alUpdate s k v) k₂ = alLookup s k₂ := by
  induction s with
  | nil => simp [alUpdate, alLookup, h]
  | cons p t ih =>
      cases p with
      | mk k' v' =>
          by_cases h' : k' = k
          · subst h'
            simp [alUpdate, alLookup, h]
          · simp [alUpdate, alLookup, h']
            by_cases h'' : k' = k₂ <;> simp [h'', ih]

/-! ### KLS digit extraction and length normalization -/

theorem mapDigits?_of_digits (l : List Char) (h : ∀ c ∈ l, c.isDigit = true) :
    mapDigits? l = some (l.map digitVal) := by
  induction l with
  | nil => rfl
  | cons c t ih =>
      have hc := h c (by simp)
      have ht := ih fun x hx => h x (by simp [hx])
      simp [mapDigits?, charDigit?, hc, ht]

theorem ledStates?_eq (s : List Char)
    (h : ∀ c ∈ s, pyIsDigit c = true → c.isDigit = true) :
    ledStates? s = some ((s.filter pyIsDigit).map digitVal) := by
  refine mapDigits?_of_digits _ fun c hc => ?_
  have hc' := List.mem_filter.mp hc
  exact h c hc'.1 hc'.2

theorem padTrunc24_length (l : List Nat) : (padTrunc24 l).length = 24 := by
  unfold padTrunc24
  by_cases h : l.length = 24
  · simp [h]
  · by_cases h' : l.length < 24 <;> simp [h, h'] <;> omega

theorem padTrunc24_pad (l : List Nat) (h : l.length ≤ 24) :
    padTrunc24 l = l ++ List.replicate (24 - l.length) 0 := by
  unfold padTrunc24
  by_cases h' : l.length = 24
  · simp [h']
  · have : l.length < 24 := by omega
    simp [h', this]

theorem padTrunc24_trunc (l : List Nat) (h : 24 < l.length) :
    padTrunc24 l = l.take 24 := by
  unfold padTrunc24
  have h1 : ¬l.length = 24 := by omega
  have h2 : ¬l.length < 24 := by omega
  simp [h1, h2]

/-- C9 counterexample: the LED token `²` is kept by the `str.isdigit`
    filter but `int` raises on it, so `_parse_kls` reaches its
    `ValueError` branch and drops the line — LED-token content can cause
    the line to be skipped, refuting the claim. -/
theorem C9_counterexample :
    pyIsDigit '²' = true ∧ Char.isDigit '²' = false ∧ charDigit? '²' = none
    ∧ parse_kls "KLS, [02:06:03], ²".data
        ["KLS".data, "[02:06:03]".data, ['²']] = none := by
  decide

/-- C9 (amended): the parser keeps, in order, exactly the characters of
    the LED token accepted by `str.isdigit`; when every kept character is
    a decimal digit the integer conversion cannot fail and the line is
    never dropped, but a kept non-decimal digit-property character (such
    as `²`) makes `int` raise and the line is skipped. -/
theorem C9_digit_filter_amended :
    (∀ s : List Char, (∀ c ∈ s, pyIsDigit c = true → c.isDigit = true) →
        ledStates? s = some ((s.filter pyIsDigit).map digitVal))
    ∧ ∀ (line cmd addr led : List Char) (rest : List (List Char)),
        (∀ c ∈ led, pyIsDigit c = true → c.isDigit = true) →
        parse_kls line (cmd :: addr :: led :: rest) ≠ none := by
  refine ⟨ledStates?_eq, ?_⟩
  intro line cmd addr led rest h
  simp only [parse_kls, ledStates?_eq led h]
  simp

theorem C9_witness :
    ledStates? "01x23".data = some (("01x23".data.filter pyIsDigit).map digitVal)
    ∧ parse_kls "KLS, [02:06:03], 01x23".data
        ["KLS".data, "[02:06:03]".data, "01x23".data] ≠ none :=
  ⟨C9_digit_filter_amended.1 _ (by decide),
   C9_digit_filter_amended.2 _ _ _ _ [] (by decide)⟩

/-- C7: every KLS line with at least three tokens whose LED token carries
    decimal digits parses to a message whose LED vector has exactly 24
    entries: shorter digit strings are right-padded with zeros, longer
    ones truncated, and the message is produced in both cases. -/
theorem C7_kls_length_normalization (line cmd addr led : List Char)
    (rest : List (List Char)) (ds : List Nat)
    (hled : ∀ c ∈ led, pyIsDigit c = true → c.isDigit = true)
    (hds : ds = (led.filter pyIsDigit).map digitVal) :
    parse_kls line (cmd :: addr :: led :: rest)
      = some (Msg.kls line (normalize_address addr) (padTrunc24 ds))
    ∧ (padTrunc24 ds).length = 24
    ∧ (ds.length ≤ 24 → padTrunc24 ds = ds ++ List.replicate (24 - ds.length) 0)
    ∧ (24 < ds.length → padTrunc24 ds = ds.take 24) := by
  subst hds
  refine ⟨?_, padTrunc24_length _, padTrunc24_pad _, padTrunc24_trunc _⟩
  simp only [parse_kls, ledStates?_eq led hled]

theorem C7_witness :
    parse_kls "KLS, [02:06:03], 0123".data
        ["KLS".data, "[02:06:03]".data, "0123".data]
      = some (Msg.kls "KLS, [02:06:03], 0123".data
          (normalize_address "[02:06:03]".data) (padTrunc24 [0, 1, 2, 3]))
    ∧ padTrunc24 [0, 1, 2, 3] = [0, 1, 2, 3] ++ List.replicate 20 0 := by
  have h := C7_kls_length_normalization "KLS, [02:06:03], 0123".data "KLS".data
      "[02:06:03]".data "0123".data [] [0, 1, 2, 3] (by decide) (by decide)
  exact ⟨h.1, by simpa using h.2.2.1 (by decide)⟩

/-- C10: the KLS accessors are total: `get_led_state` returns 0 outside
    positions 1..24 and the CCO window accessors return `False` for relays
    outside 1..8 or window indices at or past the end of the vector. -/
theorem C10_accessor_totality :
    (∀ (m : KLSMessageS) (pos : Int), m.led_states.length = 24 →
        (pos < 1 ∨ 24 < pos) → m.get_led_state pos = 0)
    ∧ (∀ (m : KLSMessageS) (relay : Int) (off : Nat),
        (relay < 1 ∨ 8 < relay) → m.get_cco_relay_state relay off = false)
    ∧ (∀ (m : KLSMessageS) (relay : Int) (off : Nat),
        m.led_states.length ≤ off + (relay - 1).toNat →
        m.get_cco_relay_state relay off = false)
    ∧ (∀ (s : KLSState) (button : Int) (off : Nat),
        (button < 1 ∨ 8 < button) → s.get_cco_state button off = false)
    ∧ (∀ (s : KLSState) (button : Int) (off : Nat),
        s.led_states.length ≤ off + (button - 1).toNat →
        s.get_cco_state button off = false) := by
  refine ⟨?_, ?_, ?_, ?_, ?_⟩
  · intro m pos hlen hout
    unfold KLSMessageS.get_led_state
    rw [if_neg]
    rw [hlen]
    push_cast
    omega
  · intro m relay off hout
    unfold KLSMessageS.get_cco_relay_state
    rw [if_pos]
    unfold CCO_BUTTON_WINDOW_LENGTH
    omega
  · intro m relay off hidx
    unfold KLSMessageS.get_cco_relay_state
    by_cases hr : 1 ≤ relay ∧ relay ≤ CCO_BUTTON_WINDOW_LENGTH
    · rw [if_neg (not_not_intro hr), if_pos]
      exact_mod_cast hidx
    · rw [if_pos hr]
  · intro s button off hout
    unfold KLSState.get_cco_state
    rw [if_pos]
    unfold CCO_BUTTON_WINDOW_LENGTH
    omega
  · intro s button off hidx
    unfold KLSState.get_cco_state
    by_cases hr : 1 ≤ button ∧ button ≤ CCO_BUTTON_WINDOW_LENGTH
    · rw [if_neg (not_not_intro hr), if_pos]
      exact_mod_cast hidx
    · rw [if_pos hr]

theorem C10_witness :
    (KLSMessageS.mk [] [] (List.replicate 24 0)).get_led_state 0 = 0
    ∧ (KLSMessageS.mk [] [] (List.replicate 24 0)).get_cco_relay_state 9 9 = false
    ∧ (KLSMessageS.mk [] [] [0, 1]).get_cco_relay_state 3 9 = false
    ∧ (KLSState.mk [] (List.replicate 24 0)).get_cco_state 0 9 = false
    ∧ (KLSState.mk [] [0, 1]).get_cco_state 3 9 = false := by
  refine ⟨?_, ?_, ?_, ?_, ?_⟩
  · exact C10_accessor_totality.1 _ 0 (by decide) (by decide)
  · exact C10_accessor_totality.2.1 _ 9 9 (by decide)
  · exact C10_accessor_totality.2.2.1 _ 3 9 (by decide)
  · exact C10_accessor_totality.2.2.2.1 _ 0 9 (by decide)
  · exact C10_accessor_totality.2.2.2.2 _ 3 9 (by decide)

/-! ### Reconnect backoff -/

theorem nextReconnectDelay_pow (j : Nat) :
    nextReconnectDelay (min (2 ^ j) 60) = min (2 ^ (j + 1)) 60 := by
  simp only [nextReconnectDelay, RECONNECT_DELAY_MULTIPLIER, RECONNECT_DELAY_MAX,
    pow_succ]
  omega

theorem waitsDuring_replicate (n : Nat) : ∀ j : Nat,
    waitsDuring (min (2 ^ j) 60) (List.replicate n .failure)
      = (List.range n).map (fun k => min (2 ^ (j + k)) 60) := by
  induction n with
  | zero => intro j; simp [waitsDuring]
  | succ n ih =>
      intro j
      rw [List.replicate_succ]
      rw [show waitsDuring (min (2 ^ j) 60) (.failure :: List.replicate n .failure)
          = min (2 ^ j) 60
            :: waitsDuring (nextReconnectDelay (min (2 ^ j) 60))
                (List.replicate n .failure) from rfl]
      rw [nextReconnectDelay_pow, ih (j + 1), List.range_succ_eq_map]
      simp only [List.map_cons, List.map_map, Function.comp, Nat.add_zero]
      congr 1
      refine List.map_congr_left fun k _ => ?_
      have h1 : j + 1 + k = j + (k + 1) := by omega
      simp [Function.comp, h1, Nat.succ_eq_add_one]

/-- C8: starting fresh, the waits before consecutive failed connect
    attempts are 1, 2, 4, 8, 16, 32, 60, 60, … seconds (`min (2^k) 60`),
    and the delay resets to the 1-second minimum immediately after any
    successful connect. -/
theorem C8_reconnect_backoff :
    (∀ n : Nat, waitsDuring RECONNECT_DELAY_MIN (List.replicate n .failure)
        = (List.range n).map (fun k => min (2 ^ k) 60))
    ∧ (∀ (d : Nat) (es : List ConnEvent),
        runDelay d (es ++ [.success]) = RECONNECT_DELAY_MIN)
    ∧ waitsDuring RECONNECT_DELAY_MIN (List.replicate 8 .failure)
        = [1, 2, 4, 8, 16, 32, 60, 60] := by
  refine ⟨?_, ?_, by decide⟩
  · intro n
    have h0 : RECONNECT_DELAY_MIN = min (2 ^ 0) 60 := by decide
    rw [h0, waitsDuring_replicate n 0]
    simp
  · intro d es
    rw [runDelay, List.foldl_append]
    rfl

/-! ### C4: command methods and the caches -/

/-- C4 counterexample: `async_cco_close` with a connected client and a
    successful send rewrites the CCO state cache (the optimistic update),
    so command methods do not leave the caches unchanged. -/
theorem C4_counterexample :
    (async_cco_close
        (CoordState.mk [] [((2, 6, 3, 1), false)] [] [])
        true true (CCOAddress.mk 2 6 3 1)).1.cco_states
      ≠ [((2, 6, 3, 1), false)] := by
  decide

/-- C4 (amended): fade, request, motor and keypad command methods leave
    all caches unchanged; `async_cco_close`/`async_cco_open` leave the
    dimmer and KLS caches unchanged but optimistically write the commanded
    value into the CCO state cache for the target device when the send
    succeeds. -/
theorem C4_command_methods_amended :
    ∀ (st : CoordState) (hc ok : Bool) (a : CCOAddress),
      ((async_cco_close st hc ok a).1.dimmer_states = st.dimmer_states
        ∧ (async_cco_close st hc ok a).1.keypad_led_states = st.keypad_led_states
        ∧ (async_cco_close st hc ok a).1.cco_states
            = if hc && ok then alUpdate st.cco_states a.unique_key true
              else st.cco_states)
      ∧ ((async_cco_open st hc ok a).1.dimmer_states = st.dimmer_states
        ∧ (async_cco_open st hc ok a).1.keypad_led_states = st.keypad_led_states
        ∧ (async_cco_open st hc ok a).1.cco_states
            = if hc && ok then alUpdate st.cco_states a.unique_key false
              else st.cco_states)
      ∧ (async_fade_dim st hc ok).1 = st
      ∧ (async_request_dimmer_level st hc ok).1 = st
      ∧ (async_motor_cover_up st hc ok).1 = st
      ∧ (async_keypad_button_press st hc ok).1 = st
      ∧ (async_request_keypad_led_states st hc ok).1 = st := by
  intro st hc ok a
  cases hc <;> cases ok <;>
    simp [async_cco_close, async_cco_open, async_fade_dim,
      async_request_dimmer_level, async_motor_cover_up,
      async_keypad_button_press, async_request_keypad_led_states]

/-! ### C1: CCO window extraction -/

/-- C1: the derived relay state reads the digit at
    `window_offset + (button - 1)`: it is ON exactly when the digit is 1,
    negated for inverted devices, and on the sample vector
    `000000000222112110000000` with offset 9 buttons 1–8 give
    F,F,F,T,T,F,T,T. -/
theorem C1_cco_window_extraction :
    (∀ (d : CCODevice) (digit : Nat),
        d.interpret_state digit = xor (decide (digit = 1)) d.inverted)
    ∧ (∀ (s : KLSState) (button : Int) (off : Nat),
        1 ≤ button → button ≤ 8 →
        off + (button - 1).toNat < s.led_states.length →
        s.get_cco_state button off
          = decide (s.led_states.getD (off + (button - 1).toNat) 0 = 1))
    ∧ (∀ (offset : Nat) (p l a : Int) (led : List Nat) (key : Key)
         (d : CCODevice) (states : List (Key × Bool)),
        d.address.processor = p → d.address.link = l → d.address.address = a →
        1 ≤ d.address.button → d.address.button ≤ 8 →
        offset + (d.address.button - 1).toNat < led.length →
        alLookup (handleKlsFold offset p l a led [(key, d)] states false).1 key
          = some (d.interpret_state
              (led.getD (offset + (d.address.button - 1).toNat) 0)))
    ∧ ((List.range 8).map
        (fun i => (KLSState.mk "[02:06:03]".data sampleLed1).get_cco_state
          ((i : Int) + 1) 9)
        = [false, false, false, true, true, false, true, true]) := by
  refine ⟨?_, ?_, ?_, by decide⟩
  · intro d digit
    cases hinv : d.inverted <;> simp [CCODevice.interpret_state, hinv]
  · intro s button off h1 h8 hidx
    unfold KLSState.get_cco_state
    rw [if_neg (not_not_intro ⟨h1, by unfold CCO_BUTTON_WINDOW_LENGTH; omega⟩)]
    rw [if_neg]
    push_cast
    omega
  · intro offset p l a led key d states h1 h2 h3 hb1 hb8 hidx
    unfold handleKlsFold
    rw [if_pos ⟨h1, h2, h3⟩, if_pos ⟨hb1, hb8⟩, if_pos hidx]
    by_cases hch : alLookup states key
        ≠ some (d.interpret_state (led.getD (offset + (d.address.button - 1).toNat) 0))
    · rw [if_pos hch]
      unfold handleKlsFold
      exact alLookup_update_self _ _ _
    · rw [if_neg hch]
      unfold handleKlsFold
      exact not_not.mp hch

theorem C1_witness :
    (CCODevice.mk (CCOAddress.mk 2 6 3 6) .switch true).interpret_state 2
      = xor (decide ((2 : Nat) = 1)) true
    ∧ (KLSState.mk "[02:06:03]".data sampleLed1).get_cco_state 6 9
      = decide (sampleLed1.getD 14 0 = 1)
    ∧ alLookup (handleKlsFold 9 2 6 3 sampleLed1
        [((2, 6, 3, 6), CCODevice.mk (CCOAddress.mk 2 6 3 6) .switch false)]
        [] false).1 (2, 6, 3, 6)
      = some ((CCODevice.mk (CCOAddress.mk 2 6 3 6) .switch false).interpret_state
          (sampleLed1.getD 14 0)) := by
  refine ⟨?_, ?_, ?_⟩
  · exact C1_cco_window_extraction.1 _ 2
  · exact C1_cco_window_extraction.2.1 _ 6 9 (by decide) (by decide) (by decide)
  · exact C1_cco_window_extraction.2.2.1 9 2 6 3 sampleLed1 (2, 6, 3, 6)
      (CCODevice.mk (CCOAddress.mk 2 6 3 6) .switch false) [] rfl rfl rfl
      (by decide) (by decide) (by decide)

/-! ### C2: coalescing of change notifications -/

theorem handleKlsFold_flag_mono (offset : Nat) (p l a : Int) (led : List Nat) :
    ∀ (devs : List (Key × CCODevice)) (states : List (Key × Bool)),
      (handleKlsFold offset p l a led devs states true).2 = true := by
  intro devs
  induction devs with
  | nil => intro states; rfl
  | cons kd rest ih =>
      intro states
      cases kd with
      | mk key device =>
          unfold handleKlsFold
          by_cases hm : device.address.processor = p ∧ device.address.link = l ∧
              device.address.address = a
          · rw [if_pos hm]
            by_cases hb : 1 ≤ device.address.button ∧ device.address.button ≤ 8
            · rw [if_pos hb]
              by_cases hi : offset + (device.address.button - 1).toNat < led.length
              · rw [if_pos hi]
                by_cases hch : alLookup states key
                    ≠ some (device.interpret_state
                        (led.getD (offset + (device.address.button - 1).toNat) 0))
                · rw [if_pos hch]; exact ih _
                · rw [if_neg hch]; exact ih _
              · rw [if_neg hi]; exact ih _
            · rw [if_neg hb]; exact ih _
          · rw [if_neg hm]; exact ih _

theorem handleKlsFold_false (offset : Nat) (p l a : Int) (led : List Nat) :
    ∀ (devs : List (Key × CCODevice)) (states : List (Key × Bool)),
      (handleKlsFold offset p l a led devs states false).2 = false →
      (handleKlsFold offset p l a led devs states false).1 = states := by
  intro devs
  induction devs with
  | nil => intro states _; rfl
  | cons kd rest ih =>
      intro states hf
      cases kd with
      | mk key device =>
          unfold handleKlsFold at hf ⊢
          by_cases hm : device.address.processor = p ∧ device.address.link = l ∧
              device.address.address = a
          · rw [if_pos hm] at hf ⊢
            by_cases hb : 1 ≤ device.address.button ∧ device.address.button ≤ 8
            · rw [if_pos hb] at hf ⊢
              by_cases hi : offset + (device.address.button - 1).toNat < led.length
              · rw [if_pos hi] at hf ⊢
                by_cases hch : alLookup states key
                    ≠ some (device.interpret_state
                        (led.getD (offset + (device.address.button - 1).toNat) 0))
                · rw [if_pos hch] at hf
                  rw [handleKlsFold_flag_mono] at hf
                  cases hf
                · rw [if_neg hch] at hf ⊢; exact ih _ hf
              · rw [if_neg hi] at hf ⊢; exact ih _ hf
            · rw [if_neg hb] at hf ⊢; exact ih _ hf
          · rw [if_neg hm] at hf ⊢; exact ih _ hf

theorem handleKlsFold_lookup_not_mem (offset : Nat) (p l a : Int) (led : List Nat) :
    ∀ (devs : List (Key × CCODevice)) (states : List (Key × Bool)) (c : Bool)
      (k : Key), k ∉ devs.map Prod.fst →
      alLookup (handleKlsFold offset p l a led devs states c).1 k
        = alLookup states k := by
  intro devs
  induction devs with
  | nil => intro states c k _; rfl
  | cons kd rest ih =>
      intro states c k hk
      cases kd with
      | mk key device =>
          have hk1 : key ≠ k := by
            intro h; exact hk (by simp [h])
          have hk2 : k ∉ rest.map Prod.fst := by
            intro h; exact hk (by simp [h])
          unfold handleKlsFold
          by_cases hm : device.address.processor = p ∧ device.address.link = l ∧
              device.address.address = a
          · rw [if_pos hm]
            by_cases hb : 1 ≤ device.address.button ∧ device.address.button ≤ 8
            · rw [if_pos hb]
              by_cases hi : offset + (device.address.button - 1).toNat < led.length
              · rw [if_pos hi]
                by_cases hch : alLookup states key
                    ≠ some (device.interpret_state
                        (led.getD (offset + (device.address.button - 1).toNat) 0))
                · rw [if_pos hch]
                  rw [ih _ _ _ hk2]
                  exact alLookup_update_ne _ _ _ _ hk1
                · rw [if_neg hch]; exact ih _ _ _ hk2
              · rw [if_neg hi]; exact ih _ _ _ hk2
            · rw [if_neg hb]; exact ih _ _ _ hk2
          · rw [if_neg hm]; exact ih _ _ _ hk2

theorem handleKlsFold_changed_exists (offset : Nat) (p l a : Int) (led : List Nat) :
    ∀ (devs : List (Key × CCODevice)) (states : List (Key × Bool)),
      (devs.map Prod.fst).Nodup →
      (handleKlsFold offset p l a led devs states false).2 = true →
      ∃ k, alLookup (handleKlsFold offset p l a led devs states false).1 k
        ≠ alLookup states k := by
  intro devs
  induction devs with
  | nil => intro states _ hf; cases hf
  | cons kd rest ih =>
      intro states hnd hf
      cases kd with
      | mk key device =>
          have hmap : (key :: rest.map Prod.fst).Nodup := by simpa using hnd
          have hnd1 : key ∉ rest.map Prod.fst := (List.nodup_cons.mp hmap).1
          have hnd2 : (rest.map Prod.fst).Nodup := (List.nodup_cons.mp hmap).2
          unfold handleKlsFold at hf ⊢
          by_cases hm : device.address.processor = p ∧ device.address.link = l ∧
              device.address.address = a
          · rw [if_pos hm] at hf ⊢
            by_cases hb : 1 ≤ device.address.button ∧ device.address.button ≤ 8
            · rw [if_pos hb] at hf ⊢
              by_cases hi : offset + (device.address.button - 1).toNat < led.length
              · rw [if_pos hi] at hf ⊢
                by_cases hch : alLookup states key
                    ≠ some (device.interpret_state
                        (led.getD (offset + (device.address.button - 1).toNat) 0))
                · rw [if_pos hch] at hf ⊢
                  refine ⟨key, ?_⟩
                  rw [handleKlsFold_lookup_not_mem _ _ _ _ _ _ _ _ _ hnd1]
                  rw [alLookup_update_self]
                  exact fun h => hch h.symm
                · rw [if_neg hch] at hf ⊢; exact ih _ hnd2 hf
              · rw [if_neg hi] at hf ⊢; exact ih _ hnd2 hf
            · rw [if_neg hb] at hf ⊢; exact ih _ hnd2 hf
          · rw [if_neg hm] at hf ⊢; exact ih _ hnd2 hf

/-- C2: one KLS update emits exactly one aggregated notification when some
    registered device's cached state changed, and none when no cached
    state changed. -/
theorem C2_coalescing (offset : Nat) (st : CoordState) (address : List Char)
    (led : List Nat) (hnd : (st.cco_devices.map Prod.fst).Nodup) :
    ((∃ k, alLookup (handle_kls_update offset st address led).1.cco_states k
        ≠ alLookup st.cco_states k) →
      (handle_kls_update offset st address led).2.length = 1)
    ∧ ((∀ k, alLookup (handle_kls_update offset st address led).1.cco_states k
        = alLookup st.cco_states k) →
      (handle_kls_update offset st address led).2.length = 0) := by
  cases hp : parseKlsAddr3 (normalize_address address) with
  | none =>
      constructor
      · intro hex
        obtain ⟨k, hk⟩ := hex
        unfold handle_kls_update at hk
        simp only [hp] at hk
        exact absurd rfl hk
      · intro _
        unfold handle_kls_update
        simp only [hp]
        rfl
  | some pla =>
      obtain ⟨p, l, a⟩ := pla
      by_cases hflag : (handleKlsFold offset p l a led st.cco_devices st.cco_states false).2
          = true
      · constructor
        · intro _
          unfold handle_kls_update
          simp only [hp, hflag, if_true]
          rfl
        · intro hall
          obtain ⟨k, hk⟩ := handleKlsFold_changed_exists offset p l a led
            st.cco_devices st.cco_states hnd hflag
          refine absurd ?_ hk
          have hthis := hall k
          unfold handle_kls_update at hthis
          simp only [hp, hflag, if_true] at hthis
          exact hthis
      · have hf2 : (handleKlsFold offset p l a led st.cco_devices st.cco_states false).2
            = false := by
          cases hres : (handleKlsFold offset p l a led st.cco_devices st.cco_states false).2
          · rfl
          · exact absurd hres hflag
        have hsame := handleKlsFold_false offset p l a led st.cco_devices st.cco_states hf2
        constructor
        · intro hex
          obtain ⟨k, hk⟩ := hex
          unfold handle_kls_update at hk
          simp only [hp, hf2, if_false, Bool.false_eq_true, hsame] at hk
          exact absurd rfl hk
        · intro _
          unfold handle_kls_update
          simp only [hp, hf2, if_false, Bool.false_eq_true]
          rfl

theorem C2_witness :
    (handle_kls_update 9
        (CoordState.mk
          [((2, 6, 3, 4), CCODevice.mk (CCOAddress.mk 2 6 3 4) .switch false),
           ((2, 6, 3, 5), CCODevice.mk (CCOAddress.mk 2 6 3 5) .switch false),
           ((2, 6, 3, 7), CCODevice.mk (CCOAddress.mk 2 6 3 7) .switch false)]
          [((2, 6, 3, 4), false), ((2, 6, 3, 5), false), ((2, 6, 3, 7), false)]
          [] [])
        "[02:06:03]".data sampleLed1).2.length = 1 := by
  exact (C2_coalescing 9 _ "[02:06:03]".data sampleLed1 (by decide)).1
    ⟨(2, 6, 3, 4), by decide⟩

/-! ### Token and stripping lemmas -/

theorem pstrip_eq_self (p : Char → Bool) (l : List Char)
    (h1 : ∀ c, l.head? = some c → p c = false)
    (h2 : ∀ c, l.getLast? = some c → p c = false) : pstrip p l = l := by
  cases l with
  | nil => rfl
  | cons c t =>
      have hc : p c = false := h1 c rfl
      unfold pstrip
      rw [List.dropWhile_cons, hc]
      simp only [Bool.false_eq_true, if_false]
      rw [List.rdropWhile_eq_self_iff]
      intro hl
      have := h2 _ (List.getLast?_eq_getLast _ hl)
      simp [this]

theorem digit_not_pyspace (c : Char) (h : c.isDigit = true) : isPySpace c = false := by
  cases hsp : isPySpace c
  · rfl
  · exfalso
    have hmem : c = ' ' ∨ c = '\t' ∨ c = '\n' ∨ c = '\r' ∨ c = '\x0b' ∨ c = '\x0c' := by
      simpa [isPySpace] using hsp
    rcases hmem with rfl | rfl | rfl | rfl | rfl | rfl <;> exact absurd h (by decide)

theorem digit_ne_comma (c : Char) (h : c.isDigit = true) : c ≠ ',' := by
  intro hc
  subst hc
  exact absurd h (by decide)

theorem all_digits_not_comma (l : List Char) (h : l.all Char.isDigit = true) :
    ',' ∉ l := by
  intro hm
  exact digit_ne_comma ',' (List.all_eq_true.mp h _ hm) rfl

theorem pstrip_digits (l : List Char) (h : l.all Char.isDigit = true) :
    pyStrip l = l := by
  refine pstrip_eq_self _ _ (fun c hc => ?_) (fun c hc => ?_)
  · exact digit_not_pyspace c
      (List.all_eq_true.mp h _ (List.mem_of_mem_head? (by simp [hc])))
  · exact digit_not_pyspace c
      (List.all_eq_true.mp h _ (List.mem_of_mem_getLast? (by simp [hc])))

theorem getLast?_append_of_ne_nil (l₁ l₂ : List Char) (h : l₂ ≠ []) :
    (l₁ ++ l₂).getLast? = l₂.getLast? := by
  rw [List.getLast?_append]
  rw [List.getLast?_eq_getLast _ h]
  rfl

/-! ### `", "` tokenization lemmas -/

theorem splitSeq2_no_sep (a b : Char) :
    ∀ p : List Char, a ∉ p → splitSeq2 a b p = [p] := by
  intro p
  induction p with
  | nil => intro _; rfl
  | cons c t ih =>
      intro h
      have hca : c ≠ a := fun hc => h (by simp [hc])
      have hta : a ∉ t := fun ht => h (by simp [ht])
      cases t with
      | nil => rfl
      | cons d t' =>
          simp only [splitSeq2]
          rw [if_neg (fun hcd => hca hcd.1)]
          rw [ih hta]

theorem splitSeq2_append_sep (a b : Char) :
    ∀ (p rest : List Char), a ∉ p →
      splitSeq2 a b (p ++ a :: b :: rest) = p :: splitSeq2 a b rest := by
  intro p
  induction p with
  | nil =>
      intro rest _
      rw [List.nil_append]
      simp [splitSeq2]
  | cons c t ih =>
      intro rest h
      have hca : c ≠ a := fun hc => h (by simp [hc])
      have hta : a ∉ t := fun ht => h (by simp [ht])
      cases t with
      | nil =>
          rw [List.cons_append, List.nil_append]
          simp only [splitSeq2]
          rw [if_neg (fun hcd => hca hcd.1)]
          simp
      | cons d t' =>
          rw [List.cons_append, List.cons_append]
          simp only [splitSeq2]
          rw [if_neg (fun hcd => hca hcd.1)]
          have := ih rest hta
          rw [List.cons_append] at this
          rw [this]

/-! ### Integer token parsing -/

theorem pyInt?_digits (s : List Char) (h1 : s ≠ []) (h2 : s.all Char.isDigit = true) :
    pyInt? s = some ((digitsVal s : Int)) := by
  cases s with
  | nil => exact absurd rfl h1
  | cons c t =>
      have hc : c.isDigit = true := List.all_eq_true.mp h2 _ (by simp)
      have hcm : c ≠ '-' := by intro h; subst h; exact absurd hc (by decide)
      have hcp : c ≠ '+' := by intro h; subst h; exact absurd hc (by decide)
      simp only [pyInt?]
      rw [if_neg hcm, if_neg hcp]
      unfold digits?
      rw [if_pos ⟨by simp, h2⟩]
      rfl

/-! ### Banner exclusion -/

theorem not_mem_ignored (line : List Char) (h : line.take 5 = "CCI, ".data) :
    line ∉ IGNORED_MESSAGES := by
  intro hmem
  simp only [IGNORED_MESSAGES, List.mem_cons, List.not_mem_nil, or_false] at hmem
  rcases hmem with rfl | rfl | rfl | rfl | rfl | rfl | rfl | rfl | rfl | rfl <;>
    exact absurd h (by decide)

/-- C3: a complete `CCI, <addr>, <input>, <state>` line fed to the
    `hwi_protocol` message parser produces a typed CCI message carrying
    the normalized address, the integer input number and the boolean
    state, never the Unknown fallback. -/
theorem C3_cci_parsing (addr inp st : List Char)
    (ha1 : addr ≠ [])
    (ha2 : ∀ c ∈ addr, c ≠ ',' ∧ isPySpace c = false)
    (hi1 : inp ≠ []) (hi2 : inp.all Char.isDigit = true)
    (hs1 : st ≠ []) (hs2 : st.all Char.isDigit = true) :
    hwi_parse_line
        ("CCI".data ++ ',' :: ' ' :: (addr ++ ',' :: ' ' :: (inp ++ ',' :: ' ' :: st)))
      = some (Msg.cci
          ("CCI".data ++ ',' :: ' ' :: (addr ++ ',' :: ' ' :: (inp ++ ',' :: ' ' :: st)))
          (normalize_address addr) ((digitsVal inp : Int))
          (decide ((digitsVal st : Int) = 1))) := by
  have hstrip : pyStrip
      ("CCI".data ++ ',' :: ' ' :: (addr ++ ',' :: ' ' :: (inp ++ ',' :: ' ' :: st)))
      = "CCI".data ++ ',' :: ' ' :: (addr ++ ',' :: ' ' :: (inp ++ ',' :: ' ' :: st)) := by
    refine pstrip_eq_self _ _ (fun c hc => ?_) (fun c hc => ?_)
    · have hc2 : 'C' = c := by simpa using hc
      subst hc2
      decide
    · have hlast : (("CCI".data ++ ',' :: ' ' ::
          (addr ++ ',' :: ' ' :: (inp ++ ',' :: ' ' :: st)))).getLast? = st.getLast? := by
        rw [getLast?_append_of_ne_nil _ _ (by simp)]
        rw [show (',' :: ' ' :: (addr ++ ',' :: ' ' :: (inp ++ ',' :: ' ' :: st)))
            = [',', ' '] ++ (addr ++ ',' :: ' ' :: (inp ++ ',' :: ' ' :: st)) from rfl]
        rw [getLast?_append_of_ne_nil _ _ (by simp [ha1]),
          getLast?_append_of_ne_nil _ _ (by simp)]
        rw [show (',' :: ' ' :: (inp ++ ',' :: ' ' :: st))
            = [',', ' '] ++ (inp ++ ',' :: ' ' :: st) from rfl]
        rw [getLast?_append_of_ne_nil _ _ (by simp [hi1]),
          getLast?_append_of_ne_nil _ _ (by simp)]
        rw [show (',' :: ' ' :: st) = [',', ' '] ++ st from rfl]
        rw [getLast?_append_of_ne_nil _ _ hs1]
      rw [hlast] at hc
      exact digit_not_pyspace c
        (List.all_eq_true.mp hs2 _ (List.mem_of_mem_getLast? (by simp [hc])))
  have hsplit : splitSeq2 ',' ' '
      ("CCI".data ++ ',' :: ' ' :: (addr ++ ',' :: ' ' :: (inp ++ ',' :: ' ' :: st)))
      = ["CCI".data, addr, inp, st] := by
    rw [splitSeq2_append_sep ',' ' ' "CCI".data _ (by decide)]
    rw [splitSeq2_append_sep ',' ' ' addr _
      (fun hm => (ha2 ',' hm).1 rfl)]
    rw [splitSeq2_append_sep ',' ' ' inp _ (all_digits_not_comma _ hi2)]
    rw [splitSeq2_no_sep ',' ' ' st (all_digits_not_comma _ hs2)]
  have haddr : pyStrip addr = addr := by
    refine pstrip_eq_self _ _ (fun c hc => ?_) (fun c hc => ?_)
    · exact (ha2 c (List.mem_of_mem_head? (by simp [hc]))).2
    · exact (ha2 c (List.mem_of_mem_getLast? (by simp [hc]))).2
  unfold hwi_parse_line
  rw [hstrip]
  rw [if_neg (by simp)]
  rw [if_neg (not_mem_ignored _ (by simp [List.take]))]
  rw [hsplit]
  simp only [List.map_cons, List.map_nil]
  rw [haddr, pstrip_digits _ hi2, pstrip_digits _ hs2]
  rw [show pyStrip "CCI".data = "CCI".data from by decide]
  unfold hwi_dispatch
  rw [if_pos (by decide)]
  simp only [parse_cci]
  rw [pyInt?_digits _ hi1 hi2, pyInt?_digits _ hs1 hs2]

theorem C3_witness :
    hwi_parse_line
        ("CCI".data ++ ',' :: ' ' ::
          ("[02:06:03]".data ++ ',' :: ' ' :: ("4".data ++ ',' :: ' ' :: "1".data)))
      = some (Msg.cci
          ("CCI".data ++ ',' :: ' ' ::
            ("[02:06:03]".data ++ ',' :: ' ' :: ("4".data ++ ',' :: ' ' :: "1".data)))
          (normalize_address "[02:06:03]".data) 4 true) := by
  have h := C3_cci_parsing "[02:06:03]".data "4".data "1".data
    (by decide) (by decide) (by decide) (by decide) (by decide) (by decide)
  simpa using h

/-! ### C6: parser buffering -/

theorem splitFirstCRLF_eq_append :
    ∀ {b l r : List Char}, splitFirstCRLF b = some (l, r) → b = l ++ '\r' :: '\n' :: r := by
  intro b
  induction b with
  | nil => intro l r h; simp [splitFirstCRLF] at h
  | cons c tail ih =>
      intro l r h
      cases tail with
      | nil => simp [splitFirstCRLF] at h
      | cons d rest =>
          rw [splitFirstCRLF] at h
          by_cases hcd : c = '\r' ∧ d = '\n'
          · rw [if_pos hcd] at h
            cases h
            simp [hcd.1, hcd.2]
          · rw [if_neg hcd] at h
            cases hsub : splitFirstCRLF (d :: rest) with
            | none => rw [hsub] at h; cases h
            | some pr =>
                rw [hsub] at h
                cases pr with
                | mk l' r' =>
                    cases h
                    have := ih hsub
                    simp [this]

theorem splitFirstCRLF_append {b l r : List Char} (d : List Char)
    (h : splitFirstCRLF b = some (l, r)) :
    splitFirstCRLF (b ++ d) = some (l, r ++ d) := by
  induction b generalizing l with
  | nil => simp [splitFirstCRLF] at h
  | cons c tail ih =>
      cases tail with
      | nil => simp [splitFirstCRLF] at h
      | cons e rest =>
          rw [splitFirstCRLF] at h
          rw [List.cons_append, List.cons_append, splitFirstCRLF]
          by_cases hcd : c = '\r' ∧ e = '\n'
          · rw [if_pos hcd] at h ⊢
            cases h
            rfl
          · rw [if_neg hcd] at h ⊢
            cases hsub : splitFirstCRLF (e :: rest) with
            | none => rw [hsub] at h; cases h
            | some pr =>
                rw [hsub] at h
                cases pr with
                | mk l' r' =>
                    cases h
                    have := ih hsub
                    rw [List.cons_append] at this
                    rw [this]

theorem splitFirstCRLF_none_of_no_lf :
    ∀ b : List Char, '\n' ∉ b → splitFirstCRLF b = none := by
  intro b
  induction b with
  | nil => intro _; rfl
  | cons c tail ih =>
      intro h
      cases tail with
      | nil => rfl
      | cons d rest =>
          have hd : d ≠ '\n' := fun hd => h (by simp [hd])
          have ht : '\n' ∉ d :: rest := fun hm => h (by simp; right; simpa using hm)
          rw [splitFirstCRLF, if_neg (fun hcd => hd hcd.2), ih ht]

theorem splitFirstCRLF_boundary :
    ∀ (p rest : List Char), '\n' ∉ p →
      splitFirstCRLF (p ++ '\r' :: '\n' :: rest) = some (p, rest) := by
  intro p
  induction p with
  | nil =>
      intro rest _
      rw [List.nil_append, splitFirstCRLF, if_pos ⟨rfl, rfl⟩]
  | cons c t ih =>
      intro rest h
      have hta : '\n' ∉ t := fun ht => h (by simp [ht])
      cases t with
      | nil =>
          have hc : c ≠ '\n' := fun hc => h (by simp [hc])
          rw [List.cons_append, List.nil_append, splitFirstCRLF]
          rw [if_neg (fun hcd => by exact absurd hcd.2 (by decide))]
          rw [splitFirstCRLF, if_pos ⟨rfl, rfl⟩]
      | cons e t' =>
          have he : e ≠ '\n' := fun hd => h (by simp [hd])
          rw [List.cons_append, List.cons_append, splitFirstCRLF]
          rw [if_neg (fun hcd => he hcd.2)]
          have := ih rest hta
          rw [List.cons_append] at this
          rw [this]

theorem extract_of_none (b : List Char) (h : splitFirstCRLF b = none) :
    extract b = ([], b) := by
  rw [extract.eq_def]
  split
  · rfl
  · rename_i l r heq
    rw [h] at heq
    cases heq

theorem extract_of_some {b l r : List Char} (h : splitFirstCRLF b = some (l, r)) :
    extract b = (lineMsgs l ++ (extract r).1, (extract r).2) := by
  rw [extract.eq_def]
  split
  · rename_i heq
    rw [h] at heq
    cases heq
  · rename_i l' r' heq
    rw [h] at heq
    cases heq
    rfl

theorem extract_rest_none (b : List Char) : splitFirstCRLF (extract b).2 = none := by
  cases h : splitFirstCRLF b with
  | none =>
      rw [extract_of_none _ h]
      exact h
  | some pr =>
      obtain ⟨l, r⟩ := pr
      rw [extract_of_some h]
      exact extract_rest_none r
termination_by b.length
decreasing_by
  have hb := splitFirstCRLF_eq_append h
  subst hb
  simp
  omega

theorem extract_append (b d : List Char) :
    extract (b ++ d)
      = ((extract b).1 ++ (extract ((extract b).2 ++ d)).1,
          (extract ((extract b).2 ++ d)).2) := by
  cases h : splitFirstCRLF b with
  | none =>
      rw [extract_of_none _ h]
      simp
  | some pr =>
      obtain ⟨l, r⟩ := pr
      rw [extract_of_some h, extract_of_some (splitFirstCRLF_append d h)]
      rw [extract_append r d]
      simp [List.append_assoc]
termination_by b.length
decreasing_by
  have hb := splitFirstCRLF_eq_append h
  subst hb
  simp
  omega

theorem feedMany_eq (cs : List (List Char)) : ∀ buf : List Char,
    splitFirstCRLF buf = none → feedMany buf cs = extract (buf ++ cs.flatten) := by
  induction cs with
  | nil =>
      intro buf h
      simp only [feedMany, List.flatten_nil, List.append_nil]
      rw [extract_of_none _ h]
  | cons c cs ih =>
      intro buf h
      simp only [feedMany, feed, List.flatten_cons]
      rw [ih _ (extract_rest_none _)]
      rw [← List.append_assoc]
      rw [extract_append (buf ++ c) cs.flatten]

/-- C6: the line buffering is chunk-boundary invariant: one complete
    CRLF-terminated parseable line fed in arbitrary chunks yields no
    message until the chunk holding the terminator arrives and exactly one
    message in total; two complete lines in one feed yield two messages in
    order. -/
theorem C6_chunk_invariance :
    (∀ (content : List Char) (m : Msg) (cs : List (List Char)),
        '\n' ∉ content → parse_line content = some m →
        cs.flatten = content ++ ['\r', '\n'] →
        (feedMany [] cs).1 = [m]
        ∧ ∀ k : Nat, '\n' ∉ (cs.take k).flatten → (feedMany [] (cs.take k)).1 = [])
    ∧ (∀ (c1 c2 : List Char) (m1 m2 : Msg),
        '\n' ∉ c1 → '\n' ∉ c2 → parse_line c1 = some m1 → parse_line c2 = some m2 →
        (feed [] (c1 ++ '\r' :: '\n' :: (c2 ++ ['\r', '\n']))).1 = [m1, m2]) := by
  constructor
  · intro content m cs hlf hparse hflat
    have hcne : content ≠ [] := by
      intro hcc
      subst hcc
      rw [show parse_line [] = none from rfl] at hparse
      cases hparse
    constructor
    · rw [feedMany_eq cs [] rfl, List.nil_append, hflat]
      rw [show content ++ ['\r', '\n'] = content ++ '\r' :: '\n' :: ([] : List Char)
        from rfl]
      rw [extract_of_some (splitFirstCRLF_boundary content [] hlf)]
      rw [extract_of_none [] rfl]
      unfold lineMsgs
      rw [if_neg hcne, hparse]
      rfl
    · intro k hk
      rw [feedMany_eq _ [] rfl, List.nil_append]
      rw [extract_of_none _ (splitFirstCRLF_none_of_no_lf _ hk)]
  · intro c1 c2 m1 m2 h1 h2 hp1 hp2
    have hc1 : c1 ≠ [] := by
      intro hcc
      subst hcc
      rw [show parse_line [] = none from rfl] at hp1
      cases hp1
    have hc2 : c2 ≠ [] := by
      intro hcc
      subst hcc
      rw [show parse_line [] = none from rfl] at hp2
      cases hp2
    unfold feed
    rw [List.nil_append]
    rw [extract_of_some (splitFirstCRLF_boundary c1 (c2 ++ ['\r', '\n']) h1)]
    rw [show c2 ++ ['\r', '\n'] = c2 ++ '\r' :: '\n' :: ([] : List Char) from rfl]
    rw [extract_of_some (splitFirstCRLF_boundary c2 [] h2)]
    rw [extract_of_none [] rfl]
    unfold lineMsgs
    rw [if_neg hc1, if_neg hc2, hp1, hp2]
    rfl

theorem C6_witness :
    (feedMany []
        ["KLS, [02:".data, "06:03], 0000000".data,
         "00222112110000000".data ++ ['\r'], ['\n']]).1
      = [Msg.kls "KLS, [02:06:03], 000000000222112110000000".data
          "[02:06:03]".data
          [0, 0, 0, 0, 0, 0, 0, 0, 0, 2, 2, 2, 1, 1, 2, 1, 1, 0, 0, 0, 0, 0, 0, 0]]
    ∧ (feedMany []
        (["KLS, [02:".data, "06:03], 0000000".data,
          "00222112110000000".data ++ ['\r'], ['\n']].take 3)).1 = [] := by
  have h := C6_chunk_invariance.1
    "KLS, [02:06:03], 000000000222112110000000".data
    (Msg.kls "KLS, [02:06:03], 000000000222112110000000".data
      "[02:06:03]".data
      [0, 0, 0, 0, 0, 0, 0, 0, 0, 2, 2, 2, 1, 1, 2, 1, 1, 0, 0, 0, 0, 0, 0, 0])
    ["KLS, [02:".data, "06:03], 0000000".data,
     "00222112110000000".data ++ ['\r'], ['\n']]
    (by decide) (by decide) (by decide)
  exact ⟨h.1, h.2 3 (by decide)⟩

/-! ### C5: `':'`-splitting lemmas -/

theorem splitChar_ne_nil (sep : Char) : ∀ l : List Char, splitChar sep l ≠ [] := by
  intro l
  cases l with
  | nil => simp [splitChar]
  | cons c rest =>
      simp only [splitChar]
      by_cases h : c = sep
      · simp [h]
      · simp only [if_neg h]
        cases hsp : splitChar sep rest <;> simp

theorem splitChar_not_mem (sep : Char) :
    ∀ l p, p ∈ splitChar sep l → sep ∉ p := by
  intro l
  induction l with
  | nil =>
      intro p hp
      simp [splitChar] at hp
      simp [hp]
  | cons c rest ih =>
      intro p hp
      simp only [splitChar] at hp
      by_cases h : c = sep
      · rw [if_pos h] at hp
        rcases List.mem_cons.mp hp with rfl | hp'
        · simp
        · exact ih p hp'
      · rw [if_neg h] at hp
        cases hsp : splitChar sep rest with
        | nil => exact absurd hsp (splitChar_ne_nil sep rest)
        | cons q qs =>
            rw [hsp] at hp
            rcases List.mem_cons.mp hp with rfl | hp'
            · intro hmem
              rcases List.mem_cons.mp hmem with rfl | hmem'
              · exact h rfl
              · exact ih q (by rw [hsp]; exact List.mem_cons_self _ _) hmem'
            · exact ih p (by rw [hsp]; exact List.mem_cons_of_mem _ hp')

theorem splitChar_single (sep : Char) :
    ∀ p : List Char, sep ∉ p → splitChar sep p = [p] := by
  intro p
  induction p with
  | nil => intro _; rfl
  | cons c t ih =>
      intro h
      have hc : c ≠ sep := fun hc => h (by simp [hc])
      have ht : sep ∉ t := fun hm => h (by simp [hm])
      simp only [splitChar]
      rw [if_neg (fun hcs => hc hcs), ih ht]

theorem splitChar_append_sep (sep : Char) :
    ∀ (p rest : List Char), sep ∉ p →
      splitChar sep (p ++ sep :: rest) = p :: splitChar sep rest := by
  intro p
  induction p with
  | nil =>
      intro rest _
      rw [List.nil_append]
      simp only [splitChar]
      simp
  | cons c t ih =>
      intro rest h
      have hc : c ≠ sep := fun hc => h (by simp [hc])
      have ht : sep ∉ t := fun hm => h (by simp [hm])
      rw [List.cons_append]
      simp only [splitChar]
      rw [if_neg (fun hcs => hc hcs), ih rest ht]

theorem splitChar_join (sep : Char) :
    ∀ ps : List (List Char), ps ≠ [] → (∀ p ∈ ps, sep ∉ p) →
      splitChar sep (joinChar sep ps) = ps := by
  intro ps
  induction ps with
  | nil => intro h _; exact absurd rfl h
  | cons p ps' ih =>
      intro _ hall
      cases ps' with
      | nil => exact splitChar_single sep p (hall p (by simp))
      | cons q ps'' =>
          rw [show joinChar sep (p :: q :: ps'') = p ++ sep :: joinChar sep (q :: ps'')
            from rfl]
          rw [splitChar_append_sep sep p _ (hall p (by simp))]
          rw [ih (by simp) (fun x hx => hall x (List.mem_cons_of_mem _ hx))]

theorem splitChar_eq_single_nil (sep : Char) :
    ∀ rest : List Char, splitChar sep rest = [[]] → rest = [] := by
  intro rest h
  cases rest with
  | nil => rfl
  | cons c r =>
      simp only [splitChar] at h
      by_cases hc : c = sep
      · rw [if_pos hc] at h
        have hne := splitChar_ne_nil sep r
        have : splitChar sep r = [] := by
          have := List.cons.injEq ([] : List Char) (splitChar sep r) [] [] ▸ h
          simpa using h
        exact absurd this hne
      · rw [if_neg hc] at h
        cases hsp : splitChar sep r with
        | nil => exact absurd hsp (splitChar_ne_nil sep r)
        | cons q qs =>
            rw [hsp] at h
            simp at h

/-! ### C5: `zfill` lemmas -/

theorem zfill2_singleton (b : Char) :
    zfill2 [b] = if b = '+' ∨ b = '-' then [b, '0'] else ['0', b] := by
  rfl

theorem zfill2_eq_self (s : List Char) (h : 2 ≤ s.length) : zfill2 s = s := by
  unfold zfill2
  rw [if_pos h]

theorem zfill2_len (s : List Char) : 2 ≤ (zfill2 s).length := by
  by_cases h : 2 ≤ s.length
  · rw [zfill2_eq_self s h]
    exact h
  · cases s with
    | nil => decide
    | cons c t =>
        cases t with
        | nil =>
            rw [zfill2_singleton]
            by_cases hsign : c = '+' ∨ c = '-'
            · rw [if_pos hsign]; simp
            · rw [if_neg hsign]; simp
        | cons d t' =>
            exfalso
            apply h
            simp

theorem zfill2_idem (s : List Char) : zfill2 (zfill2 s) = zfill2 s :=
  zfill2_eq_self _ (zfill2_len s)

theorem zfill2_mem (s : List Char) (c : Char) (h : c ∈ zfill2 s) :
    c = '0' ∨ c ∈ s := by
  by_cases hlen : 2 ≤ s.length
  · rw [zfill2_eq_self s hlen] at h
    exact Or.inr h
  · cases s with
    | nil =>
        have h0 : c ∈ ['0', '0'] := h
        simp at h0
        exact Or.inl h0
    | cons b t =>
        cases t with
        | nil =>
            rw [zfill2_singleton] at h
            by_cases hsign : b = '+' ∨ b = '-'
            · rw [if_pos hsign] at h
              simp at h
              rcases h with rfl | rfl
              · exact Or.inr (by simp)
              · exact Or.inl rfl
            · rw [if_neg hsign] at h
              simp at h
              rcases h with rfl | rfl
              · exact Or.inl rfl
              · exact Or.inr (by simp)
        | cons d t' =>
            exfalso
            apply hlen
            simp

theorem zfill2_head? (s : List Char) :
    (zfill2 s).head? = some '0' ∨ (zfill2 s).head? = s.head? := by
  by_cases hlen : 2 ≤ s.length
  · rw [zfill2_eq_self s hlen]
    exact Or.inr rfl
  · cases s with
    | nil => exact Or.inl rfl
    | cons b t =>
        cases t with
        | nil =>
            rw [zfill2_singleton]
            by_cases hsign : b = '+' ∨ b = '-'
            · rw [if_pos hsign]
              exact Or.inr rfl
            · rw [if_neg hsign]
              exact Or.inl rfl
        | cons d t' =>
            exfalso
            apply hlen
            simp

theorem zfill2_getLast? (s : List Char) :
    (zfill2 s).getLast? = some '0' ∨ (zfill2 s).getLast? = s.getLast? := by
  by_cases hlen : 2 ≤ s.length
  · rw [zfill2_eq_self s hlen]
    exact Or.inr rfl
  · cases s with
    | nil => exact Or.inl rfl
    | cons b t =>
        cases t with
        | nil =>
            rw [zfill2_singleton]
            by_cases hsign : b = '+' ∨ b = '-'
            · rw [if_pos hsign]
              exact Or.inl rfl
            · rw [if_neg hsign]
              exact Or.inr rfl
        | cons d t' =>
            exfalso
            apply hlen
            simp

/-! ### C5: head and last characters through split, join and strip -/

theorem splitChar_head? (sep : Char) (t p0 : List Char) (ps : List (List Char))
    (h : splitChar sep t = p0 :: ps) : p0 = [] ∨ p0.head? = t.head? := by
  cases t with
  | nil =>
      have : ([[]] : List (List Char)) = p0 :: ps := h
      cases this
      exact Or.inl rfl
  | cons c rest =>
      simp only [splitChar] at h
      by_cases hc : c = sep
      · rw [if_pos hc] at h
        cases h
        exact Or.inl rfl
      · rw [if_neg hc] at h
        cases hsp : splitChar sep rest with
        | nil => exact absurd hsp (splitChar_ne_nil sep rest)
        | cons q qs =>
            rw [hsp] at h
            cases h
            exact Or.inr rfl

theorem splitChar_getLast? (sep : Char) :
    ∀ (t lp : List Char), (splitChar sep t).getLast? = some lp →
      lp = [] ∨ lp.getLast? = t.getLast? := by
  intro t
  induction t with
  | nil =>
      intro lp h
      have : some ([] : List Char) = some lp := h
      cases this
      exact Or.inl rfl
  | cons c rest ih =>
      intro lp h
      simp only [splitChar] at h
      by_cases hc : c = sep
      · rw [if_pos hc] at h
        cases hsp : splitChar sep rest with
        | nil => exact absurd hsp (splitChar_ne_nil sep rest)
        | cons q qs =>
            rw [hsp] at h
            rw [List.getLast?_cons_cons] at h
            rw [← hsp] at h
            rcases ih lp h with hl | hl
            · exact Or.inl hl
            · by_cases hrest : rest = []
              · subst hrest
                have hq : ([[]] : List (List Char)) = q :: qs := hsp
                cases hq
                have : some ([] : List Char) = some lp := by
                  rw [hsp] at h
                  simpa using h
                cases this
                exact Or.inl rfl
              · right
                rw [hl]
                cases rest with
                | nil => exact absurd rfl hrest
                | cons e r' => rw [List.getLast?_cons_cons]
      · rw [if_neg hc] at h
        cases hsp : splitChar sep rest with
        | nil => exact absurd hsp (splitChar_ne_nil sep rest)
        | cons q qs =>
            rw [hsp] at h
            cases hqs : qs with
            | nil =>
                subst hqs
                have hlp : c :: q = lp := by simpa using h
                cases hlp
                by_cases hrest : rest = []
                · subst hrest
                  have hq : ([[]] : List (List Char)) = q :: ([] : List (List Char)) := hsp
                  cases hq
                  exact Or.inr rfl
                · have hql : (splitChar sep rest).getLast? = some q := by
                    rw [hsp]; rfl
                  rcases ih q hql with hq0 | hq0
                  · subst hq0
                    exact absurd (splitChar_eq_single_nil sep rest hsp) hrest
                  · right
                    have hrsome : ∃ x, rest.getLast? = some x := by
                      cases rest with
                      | nil => exact absurd rfl hrest
                      | cons e r' => exact ⟨_, List.getLast?_eq_getLast _ (by simp)⟩
                    obtain ⟨x, hx⟩ := hrsome
                    have hqne : q ≠ [] := by
                      intro hq
                      subst hq
                      rw [hx] at hq0
                      cases hq0
                    cases q with
                    | nil => exact absurd rfl hqne
                    | cons qc qt =>
                        rw [List.getLast?_cons_cons, hq0]
                        cases rest with
                        | nil => exact absurd rfl hrest
                        | cons e r' => rw [List.getLast?_cons_cons]
            | cons q2 qs' =>
                subst hqs
                rw [List.getLast?_cons_cons] at h
                have hql : (splitChar sep rest).getLast? = some lp := by
                  rw [hsp, List.getLast?_cons_cons]
                  exact h
                rcases ih lp hql with hl | hl
                · exact Or.inl hl
                · right
                  rw [hl]
                  by_cases hrest : rest = []
                  · subst hrest
                    have : ([[]] : List (List Char)) = q :: q2 :: qs' := hsp
                    cases this
                  · cases rest with
                    | nil => exact absurd rfl hrest
                    | cons e r' => rw [List.getLast?_cons_cons]

theorem joinChar_head? (sep : Char) (p : List Char) (ps : List (List Char))
    (hp : p ≠ []) : (joinChar sep (p :: ps)).head? = p.head? := by
  cases ps with
  | nil => rfl
  | cons q ps' =>
      rw [show joinChar sep (p :: q :: ps') = p ++ sep :: joinChar sep (q :: ps')
        from rfl]
      cases p with
      | nil => exact absurd rfl hp
      | cons c t => rfl

theorem joinChar_getLast? (sep : Char) :
    ∀ (ps : List (List Char)) (lp : List Char), ps.getLast? = some lp → lp ≠ [] →
      (joinChar sep ps).getLast? = lp.getLast? := by
  intro ps
  induction ps with
  | nil => intro lp h _; cases h
  | cons p ps' ih =>
      intro lp h hlp
      cases ps' with
      | nil =>
          have : some p = some lp := h
          cases this
          rfl
      | cons q ps'' =>
          rw [List.getLast?_cons_cons] at h
          have hj := ih lp h hlp
          have hlpx : ∃ x, lp.getLast? = some x := by
            cases lp with
            | nil => exact absurd rfl hlp
            | cons c t => exact ⟨_, List.getLast?_eq_getLast _ (by simp)⟩
          obtain ⟨x, hx⟩ := hlpx
          have hjne : joinChar sep (q :: ps'') ≠ [] := by
            intro hh
            rw [hh] at hj
            rw [hx] at hj
            cases hj
          rw [show joinChar sep (p :: q :: ps'') = p ++ sep :: joinChar sep (q :: ps'')
            from rfl]
          rw [getLast?_append_of_ne_nil _ _ (by simp)]
          cases hjc : joinChar sep (q :: ps'') with
          | nil => exact absurd hjc hjne
          | cons jc jt =>
              rw [List.getLast?_cons_cons, ← hjc, hj]

theorem dropWhile_head?_not (p : Char → Bool) :
    ∀ (l : List Char) (c : Char), (l.dropWhile p).head? = some c → p c = false := by
  intro l
  induction l with
  | nil => intro c h; cases h
  | cons a t ih =>
      intro c h
      rw [List.dropWhile_cons] at h
      by_cases ha : p a = true
      · rw [if_pos ha] at h
        exact ih c h
      · rw [if_neg ha] at h
        have : a = c := by simpa using h
        subst this
        simpa using ha

theorem rdropWhile_head? (p : Char → Bool) (u : List Char) (c : Char)
    (h : (u.rdropWhile p).head? = some c) : u.head? = some c := by
  induction u using List.reverseRecOn with
  | nil => simpa [List.rdropWhile_nil] using h
  | append_singleton l x ih =>
      rw [List.rdropWhile_concat] at h
      by_cases hx : p x = true
      · rw [if_pos hx] at h
        have hl := ih h
        have hlne : l ≠ [] := by
          intro hh
          rw [hh] at hl
          cases hl
        cases l with
        | nil => exact absurd rfl hlne
        | cons a t => simpa using hl
      · rw [if_neg hx] at h
        exact h

theorem stripBr_head_not (s : List Char) (c : Char)
    (h : (stripBr s).head? = some c) : isBr c = false := by
  have h1 : ((s.dropWhile isBr).rdropWhile isBr).head? = some c := h
  have h2 := rdropWhile_head? isBr _ _ h1
  exact dropWhile_head?_not isBr s c h2

theorem stripBr_getLast_not (s : List Char) (c : Char)
    (h : (stripBr s).getLast? = some c) : isBr c = false := by
  have hne : stripBr s ≠ [] := by
    intro hh
    rw [hh] at h
    cases h
  have hg := List.getLast?_eq_getLast _ hne
  rw [h] at hg
  have hlast := List.rdropWhile_last_not isBr (s.dropWhile isBr)
    (by exact hne)
  have hc : c = (stripBr s).getLast hne := by
    have := hg
    simpa using this
  rw [hc]
  simpa using hlast

theorem strip_wrap (body : List Char) (hne : body ≠ [])
    (hh : ∀ c, body.head? = some c → isBr c = false)
    (hl : ∀ c, body.getLast? = some c → isBr c = false) :
    stripBr ('[' :: body ++ [']']) = body := by
  unfold stripBr pstrip
  rw [show ('[' :: body ++ [']']) = '[' :: (body ++ [']']) from rfl]
  rw [List.dropWhile_cons, if_pos (by decide)]
  cases body with
  | nil => exact absurd rfl hne
  | cons c t =>
      have hc : isBr c = false := hh c rfl
      rw [List.cons_append, List.dropWhile_cons, hc]
      simp only [Bool.false_eq_true, if_false]
      rw [show c :: (t ++ [']']) = (c :: t) ++ [']'] from rfl]
      rw [List.rdropWhile_concat_pos _ _ _ (by decide)]
      rw [List.rdropWhile_eq_self_iff]
      intro hl'
      have := hl _ (List.getLast?_eq_getLast _ hl')
      simp [this]

theorem zfill2_ne_nil (s : List Char) : zfill2 s ≠ [] := by
  have h := zfill2_len s
  intro hh
  rw [hh] at h
  simp at h

theorem body_head_not_br (s : List Char) (c : Char)
    (hc : (joinChar ':' ((splitChar ':' (stripBr s)).map zfill2)).head? = some c) :
    isBr c = false := by
  obtain ⟨p0, ps, hsp⟩ : ∃ p0 ps, splitChar ':' (stripBr s) = p0 :: ps := by
    cases h : splitChar ':' (stripBr s) with
    | nil => exact absurd h (splitChar_ne_nil _ _)
    | cons a b => exact ⟨a, b, rfl⟩
  rw [hsp, List.map_cons] at hc
  rw [joinChar_head? ':' _ _ (zfill2_ne_nil p0)] at hc
  rcases zfill2_head? p0 with h0 | h0
  · rw [h0] at hc
    have hc0 := Option.some.inj hc
    subst hc0
    decide
  · rw [h0] at hc
    have hp0 : p0 ≠ [] := by
      intro hh
      subst hh
      cases hc
    rcases splitChar_head? ':' (stripBr s) p0 ps hsp with h1 | h1
    · exact absurd h1 hp0
    · exact stripBr_head_not s c (by rw [← h1]; exact hc)

theorem body_last_not_br (s : List Char) (c : Char)
    (hc : (joinChar ':' ((splitChar ':' (stripBr s)).map zfill2)).getLast? = some c) :
    isBr c = false := by
  obtain ⟨lp, hlp⟩ : ∃ lp, (splitChar ':' (stripBr s)).getLast? = some lp := by
    cases h : splitChar ':' (stripBr s) with
    | nil => exact absurd h (splitChar_ne_nil _ _)
    | cons a b => exact ⟨_, List.getLast?_eq_getLast _ (by simp)⟩
  have hqlast : ((splitChar ':' (stripBr s)).map zfill2).getLast? = some (zfill2 lp) := by
    rw [List.getLast?_map, hlp]
    rfl
  rw [joinChar_getLast? ':' _ (zfill2 lp) hqlast (zfill2_ne_nil lp)] at hc
  rcases zfill2_getLast? lp with h0 | h0
  · rw [h0] at hc
    have hc0 := Option.some.inj hc
    subst hc0
    decide
  · rw [h0] at hc
    have hlp0 : lp ≠ [] := by
      intro hh
      subst hh
      cases hc
    rcases splitChar_getLast? ':' (stripBr s) lp hlp with h1 | h1
    · exact absurd h1 hlp0
    · exact stripBr_getLast_not s c (by rw [← h1]; exact hc)

theorem body_ne_nil (s : List Char) :
    joinChar ':' ((splitChar ':' (stripBr s)).map zfill2) ≠ [] := by
  intro hh
  obtain ⟨p0, ps, hsp⟩ : ∃ p0 ps, splitChar ':' (stripBr s) = p0 :: ps := by
    cases h : splitChar ':' (stripBr s) with
    | nil => exact absurd h (splitChar_ne_nil _ _)
    | cons a b => exact ⟨a, b, rfl⟩
  rw [hsp, List.map_cons] at hh
  have hhd := joinChar_head? ':' (zfill2 p0) (ps.map zfill2) (zfill2_ne_nil p0)
  rw [hh] at hhd
  cases hz : zfill2 p0 with
  | nil => exact zfill2_ne_nil p0 hz
  | cons a t =>
      rw [hz] at hhd
      cases hhd

theorem map_zfill2_idem (l : List (List Char)) :
    (l.map zfill2).map zfill2 = l.map zfill2 := by
  rw [List.map_map]
  exact List.map_congr_left fun p _ => zfill2_idem p

theorem no_colon_in_zfill2_parts (s : List Char) :
    ∀ q ∈ (splitChar ':' (stripBr s)).map zfill2, ':' ∉ q := by
  intro q hq
  obtain ⟨p, hp, rfl⟩ := List.mem_map.mp hq
  intro hc
  rcases zfill2_mem p ':' hc with h | h
  · cases h
  · exact splitChar_not_mem ':' (stripBr s) p hp h

theorem normalize_address_idem (s : List Char) :
    normalize_address (normalize_address s) = normalize_address s := by
  unfold normalize_address
  rw [strip_wrap _ (body_ne_nil s) (body_head_not_br s) (body_last_not_br s)]
  rw [splitChar_join ':' _ ?ne ?nosep]
  case ne =>
    intro hh
    have := splitChar_ne_nil ':' (stripBr s)
    exact this (List.map_eq_nil_iff.mp hh)
  case nosep => exact no_colon_in_zfill2_parts s
  rw [map_zfill2_idem]

theorem digit_not_br (c : Char) (h : c.isDigit = true) : isBr c = false := by
  cases hbr : isBr c
  · rfl
  · exfalso
    have hmem : c = '[' ∨ c = ']' := by simpa [isBr] using hbr
    rcases hmem with rfl | rfl <;> exact absurd h (by decide)

theorem all_digits_ne_colon (l : List Char) (h : l.all Char.isDigit = true) :
    ':' ∉ l := by
  intro hm
  exact absurd (List.all_eq_true.mp h _ hm) (by decide)

theorem join_digits_head_not (segs : List (List Char)) (hne : segs ≠ [])
    (hd : ∀ p ∈ segs, p ≠ [] ∧ p.all Char.isDigit = true) :
    ∀ c, (joinChar ':' segs).head? = some c → isBr c = false := by
  intro c hc
  cases segs with
  | nil => exact absurd rfl hne
  | cons p0 rest =>
      rw [joinChar_head? ':' p0 rest (hd p0 (by simp)).1] at hc
      exact digit_not_br c (List.all_eq_true.mp (hd p0 (by simp)).2 _
        (List.mem_of_mem_head? (by simp [hc])))

theorem join_digits_last_not (segs : List (List Char)) (hne : segs ≠ [])
    (hd : ∀ p ∈ segs, p ≠ [] ∧ p.all Char.isDigit = true) :
    ∀ c, (joinChar ':' segs).getLast? = some c → isBr c = false := by
  intro c hc
  cases segs with
  | nil => exact absurd rfl hne
  | cons p0 rest =>
      obtain ⟨lp, hlp⟩ : ∃ lp, (p0 :: rest).getLast? = some lp :=
        ⟨_, List.getLast?_eq_getLast _ (by simp)⟩
      have hlpm : lp ∈ p0 :: rest := List.mem_of_mem_getLast? (by simp [hlp])
      rw [joinChar_getLast? ':' _ lp hlp (hd lp hlpm).1] at hc
      exact digit_not_br c (List.all_eq_true.mp (hd lp hlpm).2 _
        (List.mem_of_mem_getLast? (by simp [hc])))

theorem join_digits_ne_nil (segs : List (List Char)) (hne : segs ≠ [])
    (hd : ∀ p ∈ segs, p ≠ [] ∧ p.all Char.isDigit = true) :
    joinChar ':' segs ≠ [] := by
  cases segs with
  | nil => exact absurd rfl hne
  | cons p0 rest =>
      intro hh
      have hhd := joinChar_head? ':' p0 rest (hd p0 (by simp)).1
      rw [hh] at hhd
      cases hp0 : p0 with
      | nil => exact (hd p0 (by simp)).1 hp0
      | cons a t =>
          rw [hp0] at hhd
          cases hhd

theorem join_digits_strip (segs : List (List Char)) (hne : segs ≠ [])
    (hd : ∀ p ∈ segs, p ≠ [] ∧ p.all Char.isDigit = true) :
    stripBr (joinChar ':' segs) = joinChar ':' segs :=
  pstrip_eq_self isBr _ (join_digits_head_not segs hne hd)
    (join_digits_last_not segs hne hd)

theorem normalize_join_digits (segs : List (List Char)) (hne : segs ≠ [])
    (hd : ∀ p ∈ segs, p ≠ [] ∧ p.all Char.isDigit = true) :
    normalize_address (joinChar ':' segs)
      = '[' :: joinChar ':' (segs.map zfill2) ++ [']'] := by
  unfold normalize_address
  rw [join_digits_strip segs hne hd]
  rw [splitChar_join ':' segs hne (fun p hp => all_digits_ne_colon p (hd p hp).2)]

theorem canonicalPattern_cons (c : Char) (rest : List Char) :
    canonicalPattern (c :: rest)
      = ((decide (c = '[')) && (decide (rest.getLast? = some ']')) &&
        ((splitChar ':' rest.dropLast).all
            (fun p => decide (2 ≤ p.length) && p.all Char.isDigit) &&
          decide (2 ≤ (splitChar ':' rest.dropLast).length) &&
          decide ((splitChar ':' rest.dropLast).length ≤ 5))) := rfl

theorem normalize_canonical (segs : List (List Char)) (h2 : 2 ≤ segs.length)
    (h5 : segs.length ≤ 5)
    (hd : ∀ p ∈ segs, p ≠ [] ∧ p.all Char.isDigit = true) :
    canonicalPattern (normalize_address (joinChar ':' segs)) = true
    ∧ normalize_address ('[' :: joinChar ':' segs ++ [']'])
        = normalize_address (joinChar ':' segs) := by
  have hne : segs ≠ [] := by
    intro hh
    subst hh
    simp at h2
  have hmapne : segs.map zfill2 ≠ [] := by
    intro hh
    exact hne (List.map_eq_nil_iff.mp hh)
  have hmap_nocolon : ∀ q ∈ segs.map zfill2, ':' ∉ q := by
    intro q hq hc
    obtain ⟨p, hp, rfl⟩ := List.mem_map.mp hq
    rcases zfill2_mem p ':' hc with h | h
    · cases h
    · exact all_digits_ne_colon p (hd p hp).2 h
  constructor
  · rw [normalize_join_digits segs hne hd]
    rw [List.cons_append, canonicalPattern_cons]
    rw [List.getLast?_concat, List.dropLast_concat]
    rw [splitChar_join ':' (segs.map zfill2) hmapne hmap_nocolon]
    simp only [Bool.and_eq_true, decide_eq_true_eq, List.all_eq_true, List.length_map]
    refine ⟨⟨trivial, trivial⟩, ⟨?_, h2⟩, h5⟩
    intro q hq
    obtain ⟨p, hp, rfl⟩ := List.mem_map.mp hq
    constructor
    · exact zfill2_len p
    · intro c hc
      rcases zfill2_mem p c hc with rfl | h
      · decide
      · exact List.all_eq_true.mp (hd p hp).2 _ h
  · unfold normalize_address
    rw [strip_wrap (joinChar ':' segs) (join_digits_ne_nil segs hne hd)
      (join_digits_head_not segs hne hd) (join_digits_last_not segs hne hd)]
    rw [join_digits_strip segs hne hd]

/-- C5: address normalization is idempotent on every input string (it is
    total by construction), and on any accepted 2–5-segment integer
    address, bracketed or bare, it produces the bracketed, zero-padded,
    colon-separated canonical pattern. -/
theorem C5_normalize_idempotent_canonical :
    (∀ s : List Char, normalize_address (normalize_address s) = normalize_address s)
    ∧ (∀ segs : List (List Char), 2 ≤ segs.length → segs.length ≤ 5 →
        (∀ p ∈ segs, p ≠ [] ∧ p.all Char.isDigit = true) →
        canonicalPattern (normalize_address (joinChar ':' segs)) = true
        ∧ normalize_address ('[' :: joinChar ':' segs ++ [']'])
            = normalize_address (joinChar ':' segs)) :=
  ⟨normalize_address_idem, normalize_canonical⟩

theorem C5_witness :
    normalize_address (normalize_address "2:6:3".data) = normalize_address "2:6:3".data
    ∧ canonicalPattern (normalize_address (joinChar ':' ["2".data, "6".data, "3".data]))
        = true
    ∧ normalize_address ('[' :: joinChar ':' ["2".data, "6".data, "3".data] ++ [']'])
        = normalize_address (joinChar ':' ["2".data, "6".data, "3".data]) := by
  have h := C5_normalize_idempotent_canonical.2 ["2".data, "6".data, "3".data]
    (by decide) (by decide) (by decide)
  exact ⟨C5_normalize_idempotent_canonical.1 "2:6:3".data, h.1, h.2⟩

end HWI
